import Mathlib

/-!
Verification of the Wylto template engine (`app/wylto.server.js`).

The engine renders WhatsApp message templates: it validates required
fields, resolves conditional blocks, substitutes placeholders, and
normalizes whitespace.  This file is a shallow embedding of that code:
JavaScript scalar values become `Value`, data records become association
lists, the conditional-block regex becomes a left-to-right scanner, and
the two `throw` sites become an `Except` error type.
-/

set_option autoImplicit false

namespace Wylto

/-- JavaScript scalar values that can appear in a data record.
`null` also stands for `undefined`: the two are indistinguishable in
every code path of the engine (`!data[field]`, `value != null`). -/
inductive Value where
  | str (s : String)
  | num (n : Int)
  | boolean (b : Bool)
  | null
deriving DecidableEq

/-- A data record: ordered key/value pairs, as a JS object with string
keys (iteration order of `Object.entries` = insertion order). -/
abbrev DataRec := List (String × Value)

/-- `data[field]` lookup (first matching key). -/
def dlookup (d : DataRec) (k : String) : Option Value :=
  match d with
  | [] => none
  | (k', v) :: rest => if k' = k then some v else dlookup rest k

/-- JavaScript truthiness of a scalar value. -/
def jsTruthy : Value → Bool
  | .str s => s != ""
  | .num n => n != 0
  | .boolean b => b
  | .null => false

/-- Truthiness of `data[field]` (`undefined`, i.e. absent, is falsy). -/
def jsTruthyOpt : Option Value → Bool
  | some v => jsTruthy v
  | none => false

/-- `String(value)` guarded by `value != null` as in the substitution
step: `value != null ? String(value) : ""`. -/
def jsString : Value → String
  | .str s => s
  | .num n => toString n
  | .boolean b => if b then "true" else "false"
  | .null => ""

/-- One registered template (field names as in the source). -/
structure Template where
  messageType : String
  description : String
  textTemplate : String
  requiredFields : List String
  optionalFields : List String
deriving DecidableEq

/-- `{{name}}` as literal text. -/
def ph (n : String) : String := "\x7b\x7b" ++ n ++ "\x7d\x7d"

/-- `{{#name}}` — conditional block opener as literal text. -/
def obk (n : String) : String := "\x7b\x7b#" ++ n ++ "\x7d\x7d"

/-- `{{/name}}` — conditional block closer as literal text. -/
def cbk (n : String) : String := "\x7b\x7b/" ++ n ++ "\x7d\x7d"

/-- The `ORDER_CREATED` entry of `TEMPLATES`. -/
def orderCreatedTemplate : Template where
  messageType := "ORDER_CREATED"
  description := "Sent when a new order is created"
  textTemplate :=
    "Hi " ++ ph "customerName" ++ ", thanks for your order #" ++ ph "orderNumber" ++
    " from " ++ ph "shopName" ++ ". Your total is " ++ ph "total" ++ ph "currency" ++
    ". Order details: " ++ ph "orderUrl"
  requiredFields := ["customerName", "orderNumber", "shopName", "total"]
  optionalFields := ["currency", "orderUrl"]

/-- The `ORDER_FULFILLED` entry of `TEMPLATES`. -/
def orderFulfilledTemplate : Template where
  messageType := "ORDER_FULFILLED"
  description := "Sent when an order is fulfilled/shipped"
  textTemplate :=
    "Hi " ++ ph "customerName" ++ ", your order #" ++ ph "orderNumber" ++
    " has been shipped!" ++
    obk "trackingNumber" ++ " Tracking number: " ++ ph "trackingNumber" ++ cbk "trackingNumber" ++
    obk "carrier" ++ " Carrier: " ++ ph "carrier" ++ cbk "carrier"
  requiredFields := ["customerName", "orderNumber"]
  optionalFields := ["trackingNumber", "carrier"]

/-- The `ORDER_CANCELLED` entry of `TEMPLATES`. -/
def orderCancelledTemplate : Template where
  messageType := "ORDER_CANCELLED"
  description := "Sent when an order is cancelled"
  textTemplate :=
    "Hi " ++ ph "customerName" ++ ", your order #" ++ ph "orderNumber" ++
    " from " ++ ph "shopName" ++ " has been cancelled." ++
    obk "refundAmount" ++ " Refund amount: " ++ ph "refundAmount" ++ ph "currency" ++
    cbk "refundAmount"
  requiredFields := ["customerName", "orderNumber", "shopName"]
  optionalFields := ["refundAmount", "currency"]

/-- The `ORDER_UPDATED` entry of `TEMPLATES`. -/
def orderUpdatedTemplate : Template where
  messageType := "ORDER_UPDATED"
  description := "Sent when an order status is updated"
  textTemplate :=
    "Hi " ++ ph "customerName" ++ ", your order #" ++ ph "orderNumber" ++
    " status has been updated to: " ++ ph "orderStatus" ++ "."
  requiredFields := ["customerName", "orderNumber", "orderStatus"]
  optionalFields := []

/-- The `CART_RECOVERY` entry of `TEMPLATES`. -/
def cartRecoveryTemplate : Template where
  messageType := "CART_RECOVERY"
  description := "Sent for abandoned cart recovery"
  textTemplate :=
    "Hi " ++ ph "customerName" ++ ", you left items in your cart at " ++ ph "shopName" ++
    "! Complete your purchase: " ++ ph "cartUrl" ++
    obk "itemCount" ++ " (" ++ ph "itemCount" ++ " items)" ++ cbk "itemCount" ++
    obk "cartTotal" ++ " Total: " ++ ph "cartTotal" ++ cbk "cartTotal"
  requiredFields := ["customerName", "shopName", "cartUrl"]
  optionalFields := ["itemCount", "cartTotal"]

/-- A template registry (the type of `TEMPLATES`). -/
abbrev Registry := List (String × Template)

/-- The static module-level registry `TEMPLATES`. -/
def TEMPLATES : Registry :=
  [("ORDER_CREATED", orderCreatedTemplate),
   ("ORDER_FULFILLED", orderFulfilledTemplate),
   ("ORDER_CANCELLED", orderCancelledTemplate),
   ("ORDER_UPDATED", orderUpdatedTemplate),
   ("CART_RECOVERY", cartRecoveryTemplate)]

/-! ### Character classes (JavaScript `\s` and `\w`) -/

/-- JavaScript whitespace (`\s`, also the class removed by `trim`):
space, tab, LF, VT, FF, CR, NBSP, and the Unicode space/line separators. -/
def wsChar (c : Char) : Bool :=
  c.toNat == 0x20 || c.toNat == 0x9 || c.toNat == 0xa || c.toNat == 0xb ||
  c.toNat == 0xc || c.toNat == 0xd || c.toNat == 0xa0 || c.toNat == 0x1680 ||
  (decide (0x2000 ≤ c.toNat) && decide (c.toNat ≤ 0x200a)) ||
  c.toNat == 0x2028 || c.toNat == 0x2029 || c.toNat == 0x202f || c.toNat == 0x205f ||
  c.toNat == 0x3000 || c.toNat == 0xfeff

/-- JavaScript word character (`\w` = `[A-Za-z0-9_]`). -/
def wordChar (c : Char) : Bool :=
  (decide (0x41 ≤ c.toNat) && decide (c.toNat ≤ 0x5a)) ||
  (decide (0x61 ≤ c.toNat) && decide (c.toNat ≤ 0x7a)) ||
  (decide (0x30 ≤ c.toNat) && decide (c.toNat ≤ 0x39)) || c.toNat == 0x5f

/-! ### Basic list-of-chars utilities -/

/-- `lstartsWith pat s`: `pat` is a prefix of `s`. -/
def lstartsWith : List Char → List Char → Bool
  | [], _ => true
  | _ :: _, [] => false
  | p :: ps, c :: cs => p == c && lstartsWith ps cs

/-- Split `s` at the first occurrence of `pat`, returning the part
before the occurrence and the part after it (`none` if `pat` does not
occur).  This is the "lazy match up to the next literal pattern" step
of the conditional-block regex. -/
def splitAtSub (pat : List Char) : List Char → Option (List Char × List Char)
  | [] => if lstartsWith pat [] then some ([], []) else none
  | c :: cs =>
    if lstartsWith pat (c :: cs) then some ([], List.drop pat.length (c :: cs))
    else
      match splitAtSub pat cs with
      | some (b, a) => some (c :: b, a)
      | none => none

/-- `occursB pat s`: `pat` occurs as a contiguous substring of `s`. -/
def occursB (pat s : List Char) : Bool := (splitAtSub pat s).isSome

/-- Longest prefix of word characters (the greedy `\w+` of the regex),
together with the remaining characters. -/
def takeWord : List Char → List Char × List Char
  | [] => ([], [])
  | c :: cs =>
    if wordChar c then
      let p := takeWord cs
      (c :: p.1, p.2)
    else ([], c :: cs)

/-! ### Step 4 of `renderTemplate`: conditional blocks -/

/-- `{{#w}}` as a character list. -/
def openMarkerL (w : List Char) : List Char :=
  '\x7b' :: '\x7b' :: '#' :: (w ++ ['\x7d', '\x7d'])

/-- `{{/w}}` as a character list. -/
def closeMarkerL (w : List Char) : List Char :=
  '\x7b' :: '\x7b' :: '/' :: (w ++ ['\x7d', '\x7d'])

/-- Attempt to match the regex `\{\{#(\w+)\}\}(.*?)\{\{\/\1\}\}` at the
head of `s`.  On success returns the captured field name, the (lazy,
i.e. shortest) block content, and the characters after the closing
marker. -/
def tryOpenBlock (s : List Char) : Option (List Char × List Char × List Char) :=
  if lstartsWith ['\x7b', '\x7b', '#'] s then
    let tw := takeWord (s.drop 3)
    if tw.1 = [] then none
    else if lstartsWith ['\x7d', '\x7d'] tw.2 then
      match splitAtSub (closeMarkerL tw.1) (tw.2.drop 2) with
      | some (content, after) => some (tw.1, content, after)
      | none => none
    else none
  else none

/-- The condition of a conditional block:
`data[fieldName] && data[fieldName] !== ""`. -/
def blockCond (d : DataRec) (f : String) : Bool :=
  jsTruthyOpt (dlookup d f) && !(dlookup d f == some (Value.str ""))

/-- Fuel-driven left-to-right scan of `String.prototype.replace` with
the global conditional-block regex: at each position try to match a
block; on a match emit the content (or nothing) and continue after the
closing marker, otherwise keep one character and continue.  Any fuel
of at least `s.length` computes the real result. -/
def pbRunF (d : DataRec) : Nat → List Char → List Char
  | _, [] => []
  | 0, s => s
  | fuel + 1, c :: cs =>
    match tryOpenBlock (c :: cs) with
    | some (w, content, after) =>
      (if blockCond d (String.mk w) then content else []) ++ pbRunF d fuel after
    | none => c :: pbRunF d fuel cs

/-- Step 4 of `renderTemplate`: resolve all conditional blocks. -/
def processBlocks (d : DataRec) (s : List Char) : List Char :=
  pbRunF d s.length s

/-! ### Step 5 of `renderTemplate`: placeholder substitution -/

/-- Fuel-driven global replacement with a literally-inserted
replacement: leftmost matches of the literal pattern `\{\{key\}\}`,
non-overlapping, the replacement text not rescanned.  This models
`String.prototype.replace` with flag `g` up to the `$`-sequence
processing of string replacements, which `getSubstitution` below
supplies; the two coincide exactly when the replacement contains no
`$`.  Any fuel of at least `s.length` computes the real result. -/
def replaceAllF (pat rep : List Char) : Nat → List Char → List Char
  | _, [] => []
  | 0, s => s
  | fuel + 1, c :: cs =>
    if pat ≠ [] ∧ lstartsWith pat (c :: cs) = true then
      rep ++ replaceAllF pat rep fuel (List.drop pat.length (c :: cs))
    else
      c :: replaceAllF pat rep fuel cs

/-- Global literal replacement of `pat` by `rep` in `s`. -/
def replaceAll (pat rep s : List Char) : List Char :=
  replaceAllF pat rep s.length s

/-- `{{k}}` as a character list (the compiled placeholder pattern). -/
def wrapPh (k : String) : List Char :=
  '\x7b' :: '\x7b' :: (k.toList ++ ['\x7d', '\x7d'])

/-- One iteration of the substitution loop body, with the replacement
inserted literally.  This coincides with the source's
`rendered.replace(new RegExp(..., "g"), replacement)` exactly when the
replacement string contains no `$` and the key is a word-character
identifier (as every engine field name is); the general `$`-aware step
is `substStepJs` below. -/
def substStep (acc : List Char) (kv : String × Value) : List Char :=
  replaceAll (wrapPh kv.1) (jsString kv.2).toList acc

/-- Step 5 of `renderTemplate`: `for (const [key, value] of
Object.entries(data))` — replace each placeholder in record order, in
the literal-insertion form of `substStep`.  `substAllJs` below is the
`$`-aware general form; the two agree on every record whose stringified
values contain no `$`. -/
def substAll (d : DataRec) (s : List Char) : List Char :=
  d.foldl substStep s

/-! ### Step 6 of `renderTemplate`: whitespace normalization -/

/-- `String.prototype.split("\n")`. -/
def splitLinesL : List Char → List (List Char)
  | [] => [[]]
  | c :: cs =>
    if c = '\n' then [] :: splitLinesL cs
    else
      match splitLinesL cs with
      | [] => [[c]]
      | l :: ls => (c :: l) :: ls

/-- `String.prototype.trim()`: drop whitespace at both ends. -/
def jsTrim (s : List Char) : List Char :=
  ((s.dropWhile wsChar).reverse.dropWhile wsChar).reverse

/-- `Array.prototype.join(" ")`. -/
def joinSp : List (List Char) → List Char
  | [] => []
  | [l] => l
  | l :: l' :: ls => l ++ ' ' :: joinSp (l' :: ls)

/-- Scan for `.replace(/\s+/g, " ")`: the flag records whether the scan
is inside a whitespace run that has already emitted its single space. -/
def collapseAux : Bool → List Char → List Char
  | _, [] => []
  | inWs, c :: cs =>
    if wsChar c then
      if inWs then collapseAux true cs else ' ' :: collapseAux true cs
    else c :: collapseAux false cs

/-- `.replace(/\s+/g, " ")`: collapse every whitespace run to one space. -/
def collapseWs (s : List Char) : List Char := collapseAux false s

/-- Step 6 of `renderTemplate`: split on newlines, trim each line, drop
empty lines, rejoin with spaces, collapse whitespace runs, trim. -/
def normalizeWs (s : List Char) : List Char :=
  jsTrim (collapseWs (joinSp (((splitLinesL s).map jsTrim).filter
    (fun line => decide (0 < line.length)))))

/-! ### The engine operations -/

/-- Result shape of `validateTemplateData` (the `error` key is present
only in the template-not-found case). -/
structure ValidationResult where
  valid : Bool
  missingFields : List String
  error : Option String
deriving DecidableEq

/-- The two `throw new Error(...)` sites of `renderTemplate`, as
structured errors carrying the data interpolated into the messages. -/
inductive RenderError where
  | templateNotFound (templateKey : String)
  | missingRequiredFields (templateKey : String) (missingFields : List String)
deriving DecidableEq

/-- `validateTemplateData`, parameterized by the registry it closes
over: a required field is *missing* when
`!data[field] || data[field] === ""`. -/
def validateTemplateDataR (reg : Registry) (templateKey : String) (d : DataRec) :
    ValidationResult :=
  match reg.lookup templateKey with
  | none => ⟨false, [], some ("Template not found: " ++ templateKey)⟩
  | some t =>
    let missingFields := t.requiredFields.filter
      (fun field => !(jsTruthyOpt (dlookup d field)) || (dlookup d field == some (Value.str "")))
    ⟨missingFields.isEmpty, missingFields, none⟩

/-- Steps 3–6 of `renderTemplate` (after lookup and validation):
conditional blocks, then placeholder substitution, then whitespace
normalization. -/
def renderedBody (t : Template) (d : DataRec) : String :=
  String.mk (normalizeWs (substAll d (processBlocks d t.textTemplate.toList)))

/-- `renderTemplate`, parameterized by the registry it closes over. -/
def renderTemplateR (reg : Registry) (templateKey : String) (d : DataRec) :
    Except RenderError String :=
  match reg.lookup templateKey with
  | none => .error (.templateNotFound templateKey)
  | some t =>
    let validation := validateTemplateDataR reg templateKey d
    if validation.valid then .ok (renderedBody t d)
    else .error (.missingRequiredFields templateKey validation.missingFields)

/-- Result shape of `getTemplateInfo`. -/
structure TemplateInfo where
  messageType : String
  description : String
  requiredFields : List String
  optionalFields : List String
deriving DecidableEq

/-- `getTemplateInfo`, parameterized by the registry it closes over
(`null` for an unregistered key becomes `none`). -/
def getTemplateInfoR (reg : Registry) (templateKey : String) : Option TemplateInfo :=
  match reg.lookup templateKey with
  | none => none
  | some t => some ⟨t.messageType, t.description, t.requiredFields, t.optionalFields⟩

/-- `validateTemplateData` over the module registry `TEMPLATES`. -/
def validateTemplateData (templateKey : String) (d : DataRec) : ValidationResult :=
  validateTemplateDataR TEMPLATES templateKey d

/-- `renderTemplate` over the module registry `TEMPLATES`. -/
def renderTemplate (templateKey : String) (d : DataRec) : Except RenderError String :=
  renderTemplateR TEMPLATES templateKey d

/-- `getTemplateInfo` over the module registry `TEMPLATES`. -/
def getTemplateInfo (templateKey : String) : Option TemplateInfo :=
  getTemplateInfoR TEMPLATES templateKey

/-- `getAllTemplateKeys` (`Object.keys(TEMPLATES)`). -/
def getAllTemplateKeys : List String := TEMPLATES.map (fun p => p.1)

/-- State-passing form of `renderTemplate`: the registry is the only
module-level state; the function body contains no assignment to it, so
the embedding threads it through unchanged. -/
def renderSt (st : Registry) (templateKey : String) (d : DataRec) :
    (Except RenderError String) × Registry :=
  (renderTemplateR st templateKey d, st)

/-- State-passing form of `validateTemplateData`. -/
def validateSt (st : Registry) (templateKey : String) (d : DataRec) :
    ValidationResult × Registry :=
  (validateTemplateDataR st templateKey d, st)

/-- State-passing form of `getTemplateInfo`. -/
def getTemplateInfoSt (st : Registry) (templateKey : String) :
    Option TemplateInfo × Registry :=
  (getTemplateInfoR st templateKey, st)

/-! ### Characterizations of the scanning primitives -/

theorem lstartsWith_iff (pat s : List Char) :
    lstartsWith pat s = true ↔ ∃ t, s = pat ++ t := by
  induction pat generalizing s with
  | nil => simp [lstartsWith]
  | cons p ps ih =>
    cases s with
    | nil => simp [lstartsWith]
    | cons c cs =>
      simp only [lstartsWith, Bool.and_eq_true, beq_iff_eq, ih, List.cons_append,
        List.cons.injEq]
      constructor
      · rintro ⟨h1, t, h2⟩
        exact ⟨t, h1.symm, h2⟩
      · rintro ⟨t, h1, h2⟩
        exact ⟨h1.symm, t, h2⟩

theorem splitAtSub_eq {pat s b a : List Char} (h : splitAtSub pat s = some (b, a)) :
    s = b ++ pat ++ a := by
  induction s generalizing b with
  | nil =>
    cases pat with
    | nil =>
      simp only [splitAtSub, lstartsWith, if_true, Option.some.injEq, Prod.mk.injEq] at h
      obtain ⟨rfl, rfl⟩ := h
      rfl
    | cons p ps =>
      simp [splitAtSub, lstartsWith] at h
  | cons c cs ih =>
    simp only [splitAtSub] at h
    split at h
    · rename_i hs
      simp only [Option.some.injEq, Prod.mk.injEq] at h
      obtain ⟨rfl, rfl⟩ := h.symm
      obtain ⟨t, ht⟩ := (lstartsWith_iff pat (c :: cs)).mp hs
      rw [List.nil_append, ht, List.drop_left]
    · match hrec : splitAtSub pat cs with
      | some (b', a') =>
        rw [hrec] at h
        simp only [Option.some.injEq, Prod.mk.injEq] at h
        obtain ⟨rfl, rfl⟩ := h.symm
        simpa using ih hrec
      | none => rw [hrec] at h; exact absurd h (by simp)

theorem splitAtSub_isSome_of_starts {pat s : List Char}
    (h : lstartsWith pat s = true) : (splitAtSub pat s).isSome = true := by
  cases s with
  | nil => simp [splitAtSub, h]
  | cons c cs => simp [splitAtSub, h]

theorem splitAtSub_isSome_iff (pat s : List Char) :
    (splitAtSub pat s).isSome = true ↔ ∃ b a, s = b ++ pat ++ a := by
  constructor
  · intro h
    match hs : splitAtSub pat s with
    | some (b, a) => exact ⟨b, a, splitAtSub_eq hs⟩
    | none => rw [hs] at h; simp at h
  · rintro ⟨b, a, rfl⟩
    induction b with
    | nil =>
      exact splitAtSub_isSome_of_starts ((lstartsWith_iff _ _).mpr ⟨a, by simp⟩)
    | cons x b' ih =>
      simp only [List.cons_append, splitAtSub]
      split
      · simp
      · match hrec : splitAtSub pat (b' ++ pat ++ a) with
        | some (b'', a'') => simp
        | none => rw [hrec] at ih; simp at ih

theorem occursB_iff (pat s : List Char) :
    occursB pat s = true ↔ ∃ b a, s = b ++ pat ++ a := by
  rw [occursB, splitAtSub_isSome_iff]

theorem occursB_eq_false_iff (pat s : List Char) :
    occursB pat s = false ↔ ∀ b a, s ≠ b ++ pat ++ a := by
  rw [← Bool.not_eq_true, occursB_iff]
  push_neg
  rfl

theorem takeWord_eq {s w r : List Char} (h : takeWord s = (w, r)) :
    s = w ++ r ∧ (∀ c ∈ w, wordChar c = true) ∧
      (∀ c r', r = c :: r' → wordChar c = false) := by
  induction s generalizing w with
  | nil =>
    simp only [takeWord, Prod.mk.injEq] at h
    obtain ⟨rfl, rfl⟩ := h
    refine ⟨rfl, by simp, by simp⟩
  | cons c cs ih =>
    simp only [takeWord] at h
    split at h
    · rename_i hw
      match hrec : takeWord cs with
      | (w', r') =>
        rw [hrec] at h
        simp only [Prod.mk.injEq] at h
        obtain ⟨rfl, rfl⟩ : w = c :: w' ∧ r = r' := ⟨h.1.symm, h.2.symm⟩
        obtain ⟨h1, h2, h3⟩ := ih hrec
        refine ⟨by simp [h1], ?_, h3⟩
        intro x hx
        rcases List.mem_cons.mp hx with rfl | hx'
        · exact hw
        · exact h2 x hx'
    · rename_i hw
      simp only [Prod.mk.injEq] at h
      obtain ⟨rfl, rfl⟩ : w = [] ∧ r = c :: cs := ⟨h.1.symm, h.2.symm⟩
      refine ⟨rfl, by simp, ?_⟩
      intro x r' hx
      injection hx with hx1 hx2
      rw [← hx1]
      exact Bool.eq_false_iff.mpr hw

theorem takeWord_append {w r : List Char} (hw : ∀ c ∈ w, wordChar c = true)
    (hr : ∀ c r', r = c :: r' → wordChar c = false) :
    takeWord (w ++ r) = (w, r) := by
  induction w with
  | nil =>
    cases r with
    | nil => rfl
    | cons c r' =>
      have := hr c r' rfl
      simp [takeWord, this]
  | cons c w' ih =>
    have hc : wordChar c = true := hw c (by simp)
    have ih' := ih (fun x hx => hw x (by simp [hx]))
    simp [takeWord, hc, ih']

theorem tryOpenBlock_eq_some {s w content after : List Char}
    (h : tryOpenBlock s = some (w, content, after)) :
    s = openMarkerL w ++ content ++ closeMarkerL w ++ after ∧
      w ≠ [] ∧ (∀ c ∈ w, wordChar c = true) := by
  simp only [tryOpenBlock] at h
  split at h
  · rename_i hpre
    obtain ⟨t, ht⟩ := (lstartsWith_iff _ _).mp hpre
    have hdrop : s.drop 3 = t := by rw [ht]; rfl
    obtain ⟨w0, r0, htw0⟩ : ∃ w0 r0, takeWord (s.drop 3) = (w0, r0) := ⟨_, _, rfl⟩
    rw [htw0] at h
    simp only at h
    split at h
    · exact absurd h (by simp)
    · rename_i hw
      split at h
      · rename_i hclose
        match hsp : splitAtSub (closeMarkerL w0) (r0.drop 2) with
        | some (content', after') =>
          rw [hsp] at h
          simp only [Option.some.injEq, Prod.mk.injEq] at h
          obtain ⟨hw1, hc1, ha1⟩ := h
          subst hw1; subst hc1; subst ha1
          obtain ⟨htw, hwc, _⟩ := takeWord_eq htw0
          obtain ⟨u, hu⟩ := (lstartsWith_iff _ _).mp hclose
          have hu2 : r0.drop 2 = u := by rw [hu]; rfl
          have hsp2 := splitAtSub_eq hsp
          rw [hu2] at hsp2
          have ht2 : t = w0 ++ r0 := hdrop.symm.trans htw
          refine ⟨?_, hw, hwc⟩
          rw [ht, ht2, hu, hsp2]
          simp [openMarkerL, closeMarkerL]
        | none => rw [hsp] at h; exact absurd h (by simp)
      · exact absurd h (by simp)
  · exact absurd h (by simp)

theorem tryOpenBlock_length {s w content after : List Char}
    (h : tryOpenBlock s = some (w, content, after)) : after.length < s.length := by
  obtain ⟨hdec, hne, _⟩ := tryOpenBlock_eq_some h
  have hlen : s.length = (openMarkerL w).length + content.length + (closeMarkerL w).length
      + after.length := by
    rw [hdec]; simp [List.length_append]; omega
  have hop : 0 < (openMarkerL w).length := by simp [openMarkerL]
  omega

theorem tryOpenBlock_isSome_lstartsWith {s : List Char}
    (h : (tryOpenBlock s).isSome = true) :
    lstartsWith ['\x7b', '\x7b', '#'] s = true := by
  simp only [tryOpenBlock] at h
  split at h
  · rename_i hpre; exact hpre
  · simp at h

/-! ### Fuel adequacy and unfold lemmas for `processBlocks` -/

theorem pbRunF_congr (d : DataRec) (f1 f2 : Nat) (s : List Char)
    (h1 : s.length ≤ f1) (h2 : s.length ≤ f2) :
    pbRunF d f1 s = pbRunF d f2 s := by
  induction f1 generalizing f2 s with
  | zero =>
    have : s = [] := by cases s <;> simp_all
    subst this
    cases f2 <;> rfl
  | succ f1' ih =>
    cases s with
    | nil => cases f2 <;> rfl
    | cons c cs =>
      cases f2 with
      | zero => simp at h2
      | succ f2' =>
        match hop : tryOpenBlock (c :: cs) with
        | some (w, content, after) =>
          have hlen := tryOpenBlock_length hop
          simp only [List.length_cons] at h1 h2 hlen
          simp only [pbRunF, hop]
          rw [ih f2' after (by omega) (by omega)]
        | none =>
          simp only [List.length_cons] at h1 h2
          simp only [pbRunF, hop]
          rw [ih f2' cs (by omega) (by omega)]

theorem processBlocks_nil (d : DataRec) : processBlocks d [] = [] := rfl

theorem processBlocks_cons_none {c : Char} {cs : List Char} (d : DataRec)
    (h : tryOpenBlock (c :: cs) = none) :
    processBlocks d (c :: cs) = c :: processBlocks d cs := by
  simp only [processBlocks, List.length_cons, pbRunF, h]

theorem processBlocks_cons_some {c : Char} {cs w content after : List Char} (d : DataRec)
    (h : tryOpenBlock (c :: cs) = some (w, content, after)) :
    processBlocks d (c :: cs) =
      (if blockCond d (String.mk w) then content else []) ++ processBlocks d after := by
  have hlen := tryOpenBlock_length h
  simp only [List.length_cons] at hlen
  simp only [processBlocks, List.length_cons, pbRunF, h]
  rw [pbRunF_congr d cs.length after.length after (by omega) (le_refl _)]

/-! ### Fuel adequacy and unfold lemmas for `replaceAll` -/

theorem replaceAllF_congr (pat rep : List Char) (f1 f2 : Nat) (s : List Char)
    (h1 : s.length ≤ f1) (h2 : s.length ≤ f2) :
    replaceAllF pat rep f1 s = replaceAllF pat rep f2 s := by
  induction f1 generalizing f2 s with
  | zero =>
    have : s = [] := by cases s <;> simp_all
    subst this
    cases f2 <;> rfl
  | succ f1' ih =>
    cases s with
    | nil => cases f2 <;> rfl
    | cons c cs =>
      cases f2 with
      | zero => simp at h2
      | succ f2' =>
        simp only [replaceAllF]
        split
        · rename_i hcond
          have hpat : 0 < pat.length := by
            cases hp : pat
            · exact absurd hp hcond.1
            · simp
          simp only [List.length_cons] at h1 h2
          have hdl : (List.drop pat.length (c :: cs)).length ≤ cs.length := by
            simp only [List.length_drop, List.length_cons]
            omega
          rw [ih f2' _ (by omega) (by omega)]
        · simp only [List.length_cons] at h1 h2
          rw [ih f2' cs (by omega) (by omega)]

theorem replaceAll_nil (pat rep : List Char) : replaceAll pat rep [] = [] := rfl

theorem replaceAll_cons_pos {pat : List Char} (rep : List Char) {c : Char} {cs : List Char}
    (hne : pat ≠ []) (hpre : lstartsWith pat (c :: cs) = true) :
    replaceAll pat rep (c :: cs) =
      rep ++ replaceAll pat rep (List.drop pat.length (c :: cs)) := by
  have hpat : 0 < pat.length := by
    cases hp : pat with
    | nil => exact absurd hp hne
    | cons x xs => simp
  have hdl : (List.drop pat.length (c :: cs)).length ≤ cs.length := by
    simp only [List.length_drop, List.length_cons]; omega
  simp only [replaceAll, List.length_cons, replaceAllF]
  rw [if_pos ⟨hne, hpre⟩]
  rw [replaceAllF_congr pat rep cs.length _ _ (by omega) (le_refl _)]

theorem replaceAll_cons_neg {pat : List Char} (rep : List Char) {c : Char} {cs : List Char}
    (h : ¬(pat ≠ [] ∧ lstartsWith pat (c :: cs) = true)) :
    replaceAll pat rep (c :: cs) = c :: replaceAll pat rep cs := by
  simp only [replaceAll, List.length_cons, replaceAllF]
  rw [if_neg h]

/-! ### Canonical form of normalized text (for idempotence) -/

/-- Every whitespace character of `t` is a plain space. -/
def allWsSp (t : List Char) : Prop := ∀ c ∈ t, wsChar c = true → c = ' '

/-- The first character of `t`, if any, is not whitespace. -/
def headNotWs (t : List Char) : Prop := ∀ c ∈ t.head?, wsChar c = false

/-- Two adjacent characters are not both whitespace. -/
def wsApart (a b : Char) : Prop := wsChar a = false ∨ wsChar b = false

/-- No two adjacent characters of `t` are both whitespace. -/
def NoWsRun (t : List Char) : Prop := List.Chain' wsApart t

theorem headNotWs_dropWhile (t : List Char) : headNotWs (t.dropWhile wsChar) := by
  induction t with
  | nil => intro c hc; simp at hc
  | cons c cs ih =>
    by_cases h : wsChar c
    · simpa [List.dropWhile, h] using ih
    · intro x hx
      simp only [List.dropWhile, h] at hx
      simp only [List.head?_cons, Option.mem_def, Option.some.injEq] at hx
      rw [← hx]
      exact Bool.eq_false_iff.mpr h

theorem dropWhile_append_singleton {c : Char} (xs : List Char) (hc : wsChar c = false) :
    ∃ ys, List.dropWhile wsChar (xs ++ [c]) = ys ++ [c] := by
  induction xs with
  | nil => exact ⟨[], by simp [List.dropWhile, hc]⟩
  | cons x xs' ih =>
    by_cases h : wsChar x
    · simpa [List.dropWhile, h] using ih
    · exact ⟨x :: xs', by simp [List.dropWhile, h]⟩

theorem headNotWs_jsTrim (t : List Char) : headNotWs (jsTrim t) := by
  rw [jsTrim]
  cases ht : t.dropWhile wsChar with
  | nil => intro c hc; simp at hc
  | cons c cs =>
    have hc : wsChar c = false := by
      have := headNotWs_dropWhile t
      rw [ht] at this
      exact this c rfl
    have hrev : (c :: cs).reverse = cs.reverse ++ [c] := by simp
    rw [hrev]
    obtain ⟨ys, hys⟩ := dropWhile_append_singleton cs.reverse hc
    rw [hys]
    intro x hx
    simp only [List.reverse_append, List.reverse_cons, List.reverse_nil, List.nil_append,
      List.cons_append, List.head?_cons, Option.mem_def, Option.some.injEq] at hx
    rw [← hx]
    exact hc

theorem headNotWs_reverse_jsTrim (t : List Char) : headNotWs (jsTrim t).reverse := by
  rw [jsTrim, List.reverse_reverse]
  exact headNotWs_dropWhile _

theorem allWsSp_mem_of_jsTrim {t : List Char} {c : Char} (hc : c ∈ jsTrim t) : c ∈ t := by
  rw [jsTrim] at hc
  rw [List.mem_reverse] at hc
  have h1 : c ∈ (t.dropWhile wsChar).reverse := by
    have := List.takeWhile_append_dropWhile (p := wsChar) (l := (t.dropWhile wsChar).reverse)
    rw [← this]
    exact List.mem_append_right _ hc
  rw [List.mem_reverse] at h1
  have := List.takeWhile_append_dropWhile (p := wsChar) (l := t)
  rw [← this]
  exact List.mem_append_right _ h1

theorem allWsSp_jsTrim {t : List Char} (h : allWsSp t) : allWsSp (jsTrim t) :=
  fun c hc hw => h c (allWsSp_mem_of_jsTrim hc) hw

theorem noWsRun_dropWhile {t : List Char} (h : NoWsRun t) :
    NoWsRun (t.dropWhile wsChar) := by
  have hsplit := List.takeWhile_append_dropWhile (p := wsChar) (l := t)
  rw [NoWsRun] at h ⊢
  rw [← hsplit] at h
  exact (List.chain'_append.mp h).2.1

theorem noWsRun_reverse {t : List Char} (h : NoWsRun t) : NoWsRun t.reverse := by
  rw [NoWsRun, List.chain'_reverse]
  exact h.imp (fun a b hab => Or.symm hab)

theorem noWsRun_jsTrim {t : List Char} (h : NoWsRun t) : NoWsRun (jsTrim t) := by
  rw [jsTrim]
  exact noWsRun_reverse (noWsRun_dropWhile (noWsRun_reverse (noWsRun_dropWhile h)))

/-! ### The whitespace-collapse scan: output shape and fixed points -/

theorem allWsSp_collapseAux : ∀ (b : Bool) (s : List Char), allWsSp (collapseAux b s) := by
  intro b s
  induction s generalizing b with
  | nil => intro c hc; simp [collapseAux] at hc
  | cons c cs ih =>
    intro x hx hw
    simp only [collapseAux] at hx
    split at hx
    · split at hx
      · exact ih true x hx hw
      · rcases List.mem_cons.mp hx with rfl | hx'
        · rfl
        · exact ih true x hx' hw
    · rcases List.mem_cons.mp hx with rfl | hx'
      · rename_i hc
        exact absurd hw (by simp [hc])
      · exact ih false x hx' hw

theorem collapseAux_shape : ∀ (s : List Char) (b : Bool),
    NoWsRun (collapseAux b s) ∧ (b = true → headNotWs (collapseAux b s)) := by
  intro s
  induction s with
  | nil =>
    intro b
    constructor
    · exact List.chain'_nil
    · intro _ c hc; simp [collapseAux] at hc
  | cons c cs ih =>
    intro b
    by_cases hc : wsChar c
    · cases b with
      | true => simpa [collapseAux, hc] using ih true
      | false =>
        simp only [collapseAux, hc, if_true, if_false, Bool.false_eq_true]
        constructor
        · rw [NoWsRun, List.chain'_cons']
          refine ⟨?_, (ih true).1⟩
          intro y hy
          exact Or.inr ((ih true).2 rfl y hy)
        · intro h; cases h
    · have hshape : collapseAux b (c :: cs) = c :: collapseAux false cs := by
        simp [collapseAux, hc]
      rw [hshape]
      constructor
      · rw [NoWsRun, List.chain'_cons']
        exact ⟨fun y _ => Or.inl (Bool.eq_false_iff.mpr hc), (ih false).1⟩
      · intro _ x hx
        simp only [List.head?_cons, Option.mem_def, Option.some.injEq] at hx
        rw [← hx]
        exact Bool.eq_false_iff.mpr hc

theorem collapseAux_fixed {t : List Char} (hsp : allWsSp t) (hrun : NoWsRun t) :
    collapseAux false t = t := by
  induction t with
  | nil => rfl
  | cons c cs ih =>
    by_cases hc : wsChar c
    · have hcsp : c = ' ' := hsp c (by simp) hc
      have hnext : headNotWs cs := by
        intro y hy
        rcases (List.chain'_cons'.mp hrun).1 y hy with h | h
        · rw [hc] at h; cases h
        · exact h
      have htail : collapseAux false cs = cs :=
        ih (fun x hx hw => hsp x (by simp [hx]) hw) (List.chain'_cons'.mp hrun).2
      have hskip : collapseAux true cs = collapseAux false cs := by
        cases cs with
        | nil => rfl
        | cons y ys =>
          have hy : wsChar y = false := hnext y rfl
          simp [collapseAux, hy]
      simp only [collapseAux, hc, if_true, if_false, Bool.false_eq_true]
      rw [hskip, htail, hcsp]
    · have htail : collapseAux false cs = cs :=
        ih (fun x hx hw => hsp x (by simp [hx]) hw) (List.chain'_cons'.mp hrun).2
      simp [collapseAux, hc, htail]

/-! ### Fixed points of the remaining normalization stages -/

theorem splitLinesL_of_no_newline {t : List Char} (h : ∀ c ∈ t, c ≠ '\n') :
    splitLinesL t = [t] := by
  induction t with
  | nil => rfl
  | cons c cs ih =>
    have hc : c ≠ '\n' := h c (by simp)
    have ih' := ih (fun x hx => h x (by simp [hx]))
    simp [splitLinesL, hc, ih']

theorem jsTrim_fixed {t : List Char} (h1 : headNotWs t) (h2 : headNotWs t.reverse) :
    jsTrim t = t := by
  have hd1 : t.dropWhile wsChar = t := by
    cases t with
    | nil => rfl
    | cons c cs =>
      have := h1 c rfl
      simp [List.dropWhile, this]
  rw [jsTrim, hd1]
  have hd2 : t.reverse.dropWhile wsChar = t.reverse := by
    cases ht : t.reverse with
    | nil => rfl
    | cons c cs =>
      have := h2 c (by rw [ht]; rfl)
      simp [List.dropWhile, this]
  rw [hd2, List.reverse_reverse]

theorem normalizeWs_canonical (s : List Char) :
    allWsSp (normalizeWs s) ∧ NoWsRun (normalizeWs s) ∧ headNotWs (normalizeWs s) ∧
      headNotWs (normalizeWs s).reverse := by
  rw [normalizeWs]
  refine ⟨allWsSp_jsTrim (allWsSp_collapseAux false _),
    noWsRun_jsTrim (collapseAux_shape _ false).1, headNotWs_jsTrim _,
    headNotWs_reverse_jsTrim _⟩

theorem normalizeWs_fixed {t : List Char} (h1 : allWsSp t) (h2 : NoWsRun t)
    (h3 : headNotWs t) (h4 : headNotWs t.reverse) : normalizeWs t = t := by
  cases t with
  | nil => rfl
  | cons c cs =>
    have hnl : ∀ x ∈ c :: cs, x ≠ '\n' := by
      intro x hx hxn
      have hws : wsChar x = true := by rw [hxn]; decide
      have := h1 x hx hws
      rw [hxn] at this
      cases this
    have htr : jsTrim (c :: cs) = c :: cs := jsTrim_fixed h3 h4
    rw [normalizeWs, splitLinesL_of_no_newline hnl]
    simp only [List.map_cons, List.map_nil, htr]
    have hfil : List.filter (fun line => decide (0 < line.length)) [c :: cs] = [c :: cs] := by
      simp
    rw [hfil]
    simp only [joinSp, collapseWs]
    rw [collapseAux_fixed h1 h2, htr]

/-- The whitespace-normalization step of `renderTemplate` (step 6 of the
source) as an operation on strings. -/
def normalizeString (x : String) : String := String.mk (normalizeWs x.toList)

/-- Claim C5: the whitespace-normalization step (split on newlines, trim
each line, drop empty lines, rejoin with one space, collapse whitespace
runs to one space, trim) is idempotent: for every string `x`,
`normalize(normalize(x)) = normalize(x)`. -/
theorem normalize_idempotent (x : String) :
    normalizeString (normalizeString x) = normalizeString x := by
  rw [normalizeString, normalizeString]
  have hl : (String.mk (normalizeWs x.toList)).toList = normalizeWs x.toList := rfl
  rw [hl]
  obtain ⟨h1, h2, h3, h4⟩ := normalizeWs_canonical x.toList
  rw [normalizeWs_fixed h1 h2 h3 h4]

/-! ### Validation: the required-field test and its JS-falsy semantics -/

/-- The value of a required field as the code actually rejects it
(`!data[field] || data[field] === ""`): absent, `null`/`undefined`,
empty string, numeric zero, or boolean `false` — exactly JS falsiness
(the engine never passes `NaN`-free doubles other than via `num`). -/
def specMissing (o : Option Value) : Prop :=
  o = none ∨ o = some .null ∨ o = some (.str "") ∨ o = some (.num 0) ∨
    o = some (.boolean false)

instance specMissingDec (o : Option Value) : Decidable (specMissing o) := by
  unfold specMissing
  infer_instance

/-- The value of a required field as the *spec* says it is rejected:
absent, `null`/`undefined`, or the empty string — with numeric zero and
boolean `false` counting as present. -/
def claimMissing (o : Option Value) : Prop :=
  o = none ∨ o = some .null ∨ o = some (.str "")

instance claimMissingDec (o : Option Value) : Decidable (claimMissing o) := by
  unfold claimMissing
  infer_instance

theorem missingBool_eq (o : Option Value) :
    (!(jsTruthyOpt o) || (o == some (Value.str ""))) = decide (specMissing o) := by
  cases o with
  | none => rfl
  | some v =>
    cases v with
    | str s => by_cases hs : s = "" <;> simp [specMissing, jsTruthyOpt, jsTruthy, hs]
    | num n => by_cases hn : n = 0 <;> simp [specMissing, jsTruthyOpt, jsTruthy, hn]
    | boolean b => cases b <;> simp [specMissing, jsTruthyOpt, jsTruthy]
    | null => simp [specMissing, jsTruthyOpt, jsTruthy]

theorem validate_missingFields_eq (t : Template) (k : String) (d : DataRec)
    (hk : TEMPLATES.lookup k = some t) :
    validateTemplateData k d =
      ⟨(t.requiredFields.filter (fun f => decide (specMissing (dlookup d f)))).isEmpty,
       t.requiredFields.filter (fun f => decide (specMissing (dlookup d f))), none⟩ := by
  rw [validateTemplateData, validateTemplateDataR, hk]
  have hfc : t.requiredFields.filter
        (fun field => !(jsTruthyOpt (dlookup d field)) || (dlookup d field == some (Value.str ""))) =
      t.requiredFields.filter (fun f => decide (specMissing (dlookup d f))) :=
    List.filter_congr (fun f _ => missingBool_eq (dlookup d f))
  simp only [hfc]

/-- Claim C3 (amended): for every registered key `k` and record `d`,
`validate(k, d)` returns `missingFields` equal to exactly the subset of
`requiredFields(k)` whose value in `d` is JS-falsy — absent,
null/undefined, empty string, numeric zero, or boolean `false` — and
`valid = true` iff that subset is empty; it is pure (the registry state
threads through unchanged). -/
theorem validateTemplateData_characterization (t : Template) (k : String) (d : DataRec)
    (hk : TEMPLATES.lookup k = some t) :
    (validateTemplateData k d).missingFields =
        t.requiredFields.filter (fun f => decide (specMissing (dlookup d f))) ∧
      ((validateTemplateData k d).valid = true ↔
        (validateTemplateData k d).missingFields = []) ∧
      (validateTemplateData k d).error = none ∧
      (∀ st : Registry, (validateSt st k d).2 = st) := by
  rw [validate_missingFields_eq t k d hk]
  refine ⟨rfl, ?_, rfl, fun st => rfl⟩
  simp [List.isEmpty_iff]

/-- Witness for C3's amended theorem at `ORDER_FULFILLED` with an
incomplete record. -/
theorem validateTemplateData_characterization_witness :
    (validateTemplateData "ORDER_FULFILLED" [("customerName", .str "Anna")]).missingFields =
        orderFulfilledTemplate.requiredFields.filter
          (fun f => decide (specMissing (dlookup [("customerName", .str "Anna")] f))) ∧
      ((validateTemplateData "ORDER_FULFILLED" [("customerName", .str "Anna")]).valid = true ↔
        (validateTemplateData "ORDER_FULFILLED" [("customerName", .str "Anna")]).missingFields = []) ∧
      (validateTemplateData "ORDER_FULFILLED" [("customerName", .str "Anna")]).error = none ∧
      (∀ st : Registry, (validateSt st "ORDER_FULFILLED" [("customerName", .str "Anna")]).2 = st) :=
  validateTemplateData_characterization orderFulfilledTemplate "ORDER_FULFILLED"
    [("customerName", .str "Anna")] (by rfl)

/-- A record giving every required field of `ORDER_CREATED` a value,
with `total` being the number `0`. -/
def dZeroTotal : DataRec :=
  [("customerName", .str "Anna"), ("orderNumber", .str "1001"),
   ("shopName", .str "Shop"), ("total", .num 0)]

/-- Counterexample to claim C3 as stated: in `dZeroTotal` no required
field of `ORDER_CREATED` is absent or the empty string (the claim's
subset is empty, so the claim predicts `valid = true` and
`missingFields = []`), yet the code returns `valid = false` with
`missingFields = ["total"]`, because `!data.total` is true for the
number `0`. -/
theorem validateTemplateData_zero_total_counterexample :
    (orderCreatedTemplate.requiredFields.filter
        (fun f => decide (claimMissing (dlookup dZeroTotal f))) = []) ∧
      validateTemplateData "ORDER_CREATED" dZeroTotal = ⟨false, ["total"], none⟩ := by
  constructor
  · decide
  · rfl

/-- Claim C1 (amended): for every registered key `k` and record `d`,
`render(k, d)` raises `MissingRequiredFields` iff some field of
`requiredFields(k)` is JS-falsy in `d` (absent, null/undefined, empty
string, numeric zero, or boolean `false`); the raised error carries the
validator's missing-field list. -/
theorem renderTemplate_missing_iff_falsy (t : Template) (k : String) (d : DataRec)
    (hk : TEMPLATES.lookup k = some t) :
    ((∃ m, renderTemplate k d = .error (.missingRequiredFields k m)) ↔
        ∃ f ∈ t.requiredFields, specMissing (dlookup d f)) ∧
      ((validateTemplateData k d).valid = false →
        renderTemplate k d =
          .error (.missingRequiredFields k (validateTemplateData k d).missingFields)) := by
  have hv := validate_missingFields_eq t k d hk
  have hrender : renderTemplate k d =
      (if (validateTemplateData k d).valid then .ok (renderedBody t d)
       else .error (.missingRequiredFields k (validateTemplateData k d).missingFields)) := by
    rw [renderTemplate, renderTemplateR, hk]
    rfl
  constructor
  · constructor
    · rintro ⟨m, hm⟩
      rw [hrender] at hm
      by_cases hvalid : (validateTemplateData k d).valid
      · rw [if_pos hvalid] at hm; cases hm
      · rw [hv] at hvalid
        simp only [List.isEmpty_iff] at hvalid
        obtain ⟨f, hf⟩ := List.exists_mem_of_ne_nil _ hvalid
        have := List.mem_filter.mp hf
        exact ⟨f, this.1, of_decide_eq_true this.2⟩
    · rintro ⟨f, hf, hmiss⟩
      have hmem : f ∈ t.requiredFields.filter
          (fun f => decide (specMissing (dlookup d f))) :=
        List.mem_filter.mpr ⟨hf, decide_eq_true hmiss⟩
      have hvalid : (validateTemplateData k d).valid = false := by
        rw [hv]
        simp only [List.isEmpty_eq_false_iff_exists_mem]
        exact ⟨f, hmem⟩
      rw [hrender, if_neg (by simp [hvalid])]
      exact ⟨_, rfl⟩
  · intro hvalid
    rw [hrender, if_neg (by simp [hvalid])]

/-- Witness for C1's amended theorem at `ORDER_CREATED` with an empty
record. -/
theorem renderTemplate_missing_iff_falsy_witness :
    ((∃ m, renderTemplate "ORDER_CREATED" [] =
        .error (.missingRequiredFields "ORDER_CREATED" m)) ↔
      ∃ f ∈ orderCreatedTemplate.requiredFields, specMissing (dlookup [] f)) ∧
      ((validateTemplateData "ORDER_CREATED" []).valid = false →
        renderTemplate "ORDER_CREATED" [] =
          .error (.missingRequiredFields "ORDER_CREATED"
            (validateTemplateData "ORDER_CREATED" []).missingFields)) :=
  renderTemplate_missing_iff_falsy orderCreatedTemplate "ORDER_CREATED" [] (by rfl)

/-- Counterexample to claim C1 as stated: in `dZeroTotal` every required
field of `ORDER_CREATED` is present by the claim's notion (non-null,
non-undefined, and not the empty string — `total` is the number `0`), so
the claim predicts that `render` does not raise `MissingRequiredFields`;
the code raises it with `missingFields = ["total"]`. -/
theorem renderTemplate_zero_total_raises :
    (∀ f ∈ orderCreatedTemplate.requiredFields, ¬ claimMissing (dlookup dZeroTotal f)) ∧
      renderTemplate "ORDER_CREATED" dZeroTotal =
        .error (.missingRequiredFields "ORDER_CREATED" ["total"]) := by
  constructor
  · decide
  · rfl

/-- Claim C4: for every key `k` not in the registry and every record
`d`, all three operations signal template-not-found: `getTemplateInfo`
returns `null` (`none`), `validateTemplateData` returns the
`Template not found` error result, and `renderTemplate` raises
`TemplateNotFound` — before any validation or substitution. -/
theorem unknownKey_signals_templateNotFound (k : String) (d : DataRec)
    (hk : TEMPLATES.lookup k = none) :
    getTemplateInfo k = none ∧
      validateTemplateData k d = ⟨false, [], some ("Template not found: " ++ k)⟩ ∧
      renderTemplate k d = .error (.templateNotFound k) := by
  refine ⟨?_, ?_, ?_⟩
  · rw [getTemplateInfo, getTemplateInfoR, hk]
  · rw [validateTemplateData, validateTemplateDataR, hk]
  · rw [renderTemplate, renderTemplateR, hk]

/-- Witness for C4 at the unregistered key `"ORDER_PAID"`. -/
theorem unknownKey_signals_templateNotFound_witness :
    getTemplateInfo "ORDER_PAID" = none ∧
      validateTemplateData "ORDER_PAID" [] =
        ⟨false, [], some ("Template not found: " ++ "ORDER_PAID")⟩ ∧
      renderTemplate "ORDER_PAID" [] = .error (.templateNotFound "ORDER_PAID") :=
  unknownKey_signals_templateNotFound "ORDER_PAID" [] (by rfl)

/-- Claim C9: the engine is deterministic and stateless — rendering the
same `(templateKey, dataRecord)` twice yields identical strings (equal
registry states give equal results), and no operation changes the
registry state it threads through. -/
theorem engine_deterministic_stateless :
    (∀ k d, renderTemplate k d = renderTemplate k d) ∧
      (∀ st k d, (renderSt st k d).2 = st) ∧
      (∀ st k d, (validateSt st k d).2 = st) ∧
      (∀ st k, (getTemplateInfoSt st k).2 = st) ∧
      (∀ st st' k d, st = st' → (renderSt st k d).1 = (renderSt st' k d).1) := by
  refine ⟨fun _ _ => rfl, fun _ _ _ => rfl, fun _ _ _ => rfl, fun _ _ => rfl, ?_⟩
  rintro st st' k d rfl
  rfl

/-- Witness for C9 at concrete state and inputs. -/
theorem engine_deterministic_stateless_witness :
    (renderSt TEMPLATES "ORDER_CREATED" dZeroTotal).2 = TEMPLATES ∧
      (renderSt TEMPLATES "ORDER_CREATED" dZeroTotal).1 =
        (renderSt TEMPLATES "ORDER_CREATED" dZeroTotal).1 :=
  ⟨engine_deterministic_stateless.2.1 TEMPLATES "ORDER_CREATED" dZeroTotal,
   engine_deterministic_stateless.2.2.2.2 TEMPLATES TEMPLATES "ORDER_CREATED" dZeroTotal rfl⟩

/-- A data record that injects placeholder text through an earlier key:
`customerName` maps to the literal text `{{orderStatus}}`. -/
def dInject : DataRec :=
  [("customerName", .str ("\x7b\x7borderStatus\x7d\x7d")), ("orderNumber", .str "1"),
   ("orderStatus", .str "SHIPPED")]

/-- Claim C10: placeholder substitution is a left fold over the data
record in record order, each step replacing one key in the running
string; consequently literal `{{k}}` text injected by an earlier key's
value is replaced when `k`'s own turn comes, as the concrete
`ORDER_UPDATED` render shows (`{{orderStatus}}` injected via
`customerName` is substituted to `SHIPPED`). -/
theorem substitution_sequential_record_order :
    (∀ (d1 d2 : DataRec) (s : List Char),
        substAll (d1 ++ d2) s = substAll d2 (substAll d1 s)) ∧
      (∀ (kv : String × Value) (d : DataRec) (s : List Char),
        substAll (kv :: d) s =
          substAll d (replaceAll (wrapPh kv.1) (jsString kv.2).toList s)) ∧
      renderTemplate "ORDER_UPDATED" dInject =
        .ok "Hi SHIPPED, your order #1 status has been updated to: SHIPPED." := by
  refine ⟨?_, ?_, ?_⟩
  · intro d1 d2 s
    rw [substAll, substAll, substAll, List.foldl_append]
  · intro kv d s
    rfl
  · rfl

/-! ### More occurrence lemmas -/

theorem occursB_append_right {pat t : List Char} (x : List Char)
    (h : occursB pat t = true) : occursB pat (x ++ t) = true := by
  rw [occursB, splitAtSub_isSome_iff] at h ⊢
  obtain ⟨b, a, rfl⟩ := h
  exact ⟨x ++ b, a, by simp⟩

theorem occursB_append_left {pat t : List Char} (x : List Char)
    (h : occursB pat t = true) : occursB pat (t ++ x) = true := by
  rw [occursB, splitAtSub_isSome_iff] at h ⊢
  obtain ⟨b, a, rfl⟩ := h
  exact ⟨b, a ++ x, by simp⟩

theorem occursB_cons {pat : List Char} (c : Char) {cs : List Char}
    (h : occursB pat cs = true) : occursB pat (c :: cs) = true :=
  occursB_append_right [c] h

theorem occursB_cons_false {pat : List Char} {c : Char} {cs : List Char}
    (h : occursB pat (c :: cs) = false) : occursB pat cs = false := by
  by_contra hcs
  rw [Bool.not_eq_false] at hcs
  rw [occursB_cons c hcs] at h
  cases h

theorem occursB_of_occursB_append_pattern {p q s : List Char}
    (h : occursB (p ++ q) s = true) : occursB p s = true := by
  rw [occursB, splitAtSub_isSome_iff] at h ⊢
  obtain ⟨b, a, rfl⟩ := h
  exact ⟨b, q ++ a, by simp⟩

/-- `{{/` — the three characters every closing marker begins with. -/
def closeStart : List Char := ['\x7b', '\x7b', '/']

theorem closeMarkerL_eq (w : List Char) :
    closeMarkerL w = closeStart ++ (w ++ ['\x7d', '\x7d']) := rfl

/-- Claim C7 (first part): a string with no `{{/` anywhere (hence no
closing marker, however named) passes through block processing
unchanged — unmatched opening markers are left literal. -/
theorem processBlocks_id_of_no_close {s : List Char} (d : DataRec)
    (h : occursB closeStart s = false) : processBlocks d s = s := by
  induction s with
  | nil => rfl
  | cons c cs ih =>
    have hop : tryOpenBlock (c :: cs) = none := by
      cases htry : tryOpenBlock (c :: cs) with
      | none => rfl
      | some r =>
        obtain ⟨w, content, after⟩ := r
        obtain ⟨hdec, _, _⟩ := tryOpenBlock_eq_some htry
        have hocc : occursB closeStart (c :: cs) = true := by
          rw [hdec, closeMarkerL_eq]
          rw [occursB, splitAtSub_isSome_iff]
          exact ⟨openMarkerL w ++ content, w ++ ['\x7d', '\x7d'] ++ after, by simp⟩
        rw [hocc] at h
        cases h
    rw [processBlocks_cons_none d hop, ih (occursB_cons_false h)]

/-- Claim C7: unmatched or mismatched conditional markers are left in
the output as literal conditional syntax, and `{{#a}}`/`{{/a}}` pair
only by identical name: (1) with no closing marker anywhere, block
processing is the identity; (2) `{{#a}}X{{/b}}` — opener with a
differently-named closer only — is left untouched for every record;
(3) a closer with no opener is left untouched; (4) in
`{{#a}}X{{/b}}Y{{/a}}Z` the opener pairs with the distant `{{/a}}`,
skipping the mismatched `{{/b}}`, which stays literal inside the kept
content. -/
theorem unmatched_markers_left_literal :
    (∀ (d : DataRec) (s : List Char), occursB closeStart s = false →
        processBlocks d s = s) ∧
      (∀ d : DataRec, processBlocks d ("\x7b\x7b#a\x7d\x7dX\x7b\x7b/b\x7d\x7d").toList =
        ("\x7b\x7b#a\x7d\x7dX\x7b\x7b/b\x7d\x7d").toList) ∧
      (∀ d : DataRec, processBlocks d ("X\x7b\x7b/a\x7d\x7dY").toList =
        ("X\x7b\x7b/a\x7d\x7dY").toList) ∧
      (∀ d : DataRec,
        processBlocks d ("\x7b\x7b#a\x7d\x7dX\x7b\x7b/b\x7d\x7dY\x7b\x7b/a\x7d\x7dZ").toList =
          (if blockCond d "a" then ("X\x7b\x7b/b\x7d\x7dY").toList else []) ++ ['Z']) := by
  refine ⟨fun d s h => processBlocks_id_of_no_close d h, fun d => rfl, fun d => rfl, fun d => rfl⟩

/-- Witness for C7 at a concrete unclosed-opener string and the empty
record. -/
theorem unmatched_markers_left_literal_witness :
    processBlocks [] ("\x7b\x7b#carrier\x7d\x7d no closing marker").toList =
      ("\x7b\x7b#carrier\x7d\x7d no closing marker").toList :=
  unmatched_markers_left_literal.1 [] ("\x7b\x7b#carrier\x7d\x7d no closing marker").toList
    (by decide)

/-! ### Decomposition of block processing over a template body -/

/-- `{{#` — the three characters every opening marker begins with. -/
def openStart : List Char := ['\x7b', '\x7b', '#']

/-- No position strictly inside `pre` (continuing into `rest`) starts
with `{{#`. -/
def noOpenWithin : List Char → List Char → Bool
  | [], _ => true
  | c :: cs, rest => !(lstartsWith openStart ((c :: cs) ++ rest)) && noOpenWithin cs rest

theorem processBlocks_append (d : DataRec) {pre rest : List Char}
    (h : noOpenWithin pre rest = true) :
    processBlocks d (pre ++ rest) = pre ++ processBlocks d rest := by
  induction pre with
  | nil => rfl
  | cons c cs ih =>
    simp only [noOpenWithin, Bool.and_eq_true, Bool.not_eq_true'] at h
    have hop : tryOpenBlock (c :: (cs ++ rest)) = none := by
      cases htry : tryOpenBlock (c :: (cs ++ rest)) with
      | none => rfl
      | some r =>
        have h3 : lstartsWith openStart (c :: (cs ++ rest)) = true :=
          tryOpenBlock_isSome_lstartsWith (by rw [htry]; rfl)
        have h4 : lstartsWith openStart ((c :: cs) ++ rest) = false := h.1
        rw [List.cons_append] at h4
        rw [h4] at h3
        cases h3
    rw [List.cons_append, processBlocks_cons_none d hop, ih h.2, List.cons_append]

theorem tryOpenBlock_of_shape {w X post : List Char} (hw : w ≠ [])
    (hwc : ∀ c ∈ w, wordChar c = true)
    (hsp : splitAtSub (closeMarkerL w) (X ++ closeMarkerL w ++ post) = some (X, post)) :
    tryOpenBlock (openMarkerL w ++ (X ++ closeMarkerL w ++ post)) = some (w, X, post) := by
  have hshape : openMarkerL w ++ (X ++ closeMarkerL w ++ post) =
      (['\x7b', '\x7b', '#'] : List Char) ++
        ((w ++ ['\x7d', '\x7d']) ++ (X ++ closeMarkerL w ++ post)) := by
    simp [openMarkerL]
  rw [tryOpenBlock]
  rw [if_pos ((lstartsWith_iff _ _).mpr ⟨_, hshape⟩)]
  have hdrop : (openMarkerL w ++ (X ++ closeMarkerL w ++ post)).drop 3 =
      w ++ ('\x7d' :: '\x7d' :: (X ++ closeMarkerL w ++ post)) := by
    rw [hshape]
    have h0 : ((['\x7b', '\x7b', '#'] : List Char) ++
        ((w ++ ['\x7d', '\x7d']) ++ (X ++ closeMarkerL w ++ post))).drop 3 =
        (w ++ ['\x7d', '\x7d']) ++ (X ++ closeMarkerL w ++ post) :=
      List.drop_left (['\x7b', '\x7b', '#'] : List Char) _
    rw [h0]
    simp
  rw [hdrop]
  have htw : takeWord (w ++ ('\x7d' :: '\x7d' :: (X ++ closeMarkerL w ++ post))) =
      (w, '\x7d' :: '\x7d' :: (X ++ closeMarkerL w ++ post)) := by
    refine takeWord_append hwc ?_
    intro c r' hcr
    injection hcr with h1 _
    rw [← h1]
    decide
  simp only [htw]
  rw [if_neg hw]
  rw [if_pos (by rw [lstartsWith_iff]; exact ⟨X ++ closeMarkerL w ++ post, rfl⟩)]
  have hdrop2 : ('\x7d' :: '\x7d' :: (X ++ closeMarkerL w ++ post)).drop 2 =
      X ++ closeMarkerL w ++ post := rfl
  rw [hdrop2, hsp]

theorem processBlocks_block (d : DataRec) {w X post : List Char} (hw : w ≠ [])
    (hwc : ∀ c ∈ w, wordChar c = true)
    (hsp : splitAtSub (closeMarkerL w) (X ++ closeMarkerL w ++ post) = some (X, post)) :
    processBlocks d (openMarkerL w ++ (X ++ closeMarkerL w ++ post)) =
      (if blockCond d (String.mk w) then X else []) ++ processBlocks d post := by
  have hop := tryOpenBlock_of_shape hw hwc hsp
  have hcons : openMarkerL w ++ (X ++ closeMarkerL w ++ post) =
      '\x7b' :: ('\x7b' :: '#' :: (w ++ ['\x7d', '\x7d']) ++ (X ++ closeMarkerL w ++ post)) := by
    simp [openMarkerL]
  rw [hcons] at hop ⊢
  rw [processBlocks_cons_some d hop]

theorem blockCond_eq_truthy (d : DataRec) (f : String) :
    blockCond d f = jsTruthyOpt (dlookup d f) := by
  rw [blockCond]
  cases h : dlookup d f with
  | none => rfl
  | some v =>
    cases v with
    | str s => by_cases hs : s = "" <;> simp [jsTruthyOpt, jsTruthy, hs]
    | num n => simp [jsTruthyOpt, jsTruthy]
    | boolean b => simp [jsTruthyOpt, jsTruthy]
    | null => simp [jsTruthyOpt, jsTruthy]

theorem processBlocks_orderFulfilled (d : DataRec) :
    processBlocks d orderFulfilledTemplate.textTemplate.toList =
      ("Hi \x7b\x7bcustomerName\x7d\x7d, your order #\x7b\x7borderNumber\x7d\x7d has been shipped!").toList ++
        ((if blockCond d "trackingNumber" then
            (" Tracking number: \x7b\x7btrackingNumber\x7d\x7d").toList else []) ++
          ((if blockCond d "carrier" then (" Carrier: \x7b\x7bcarrier\x7d\x7d").toList else []) ++
            ([] : List Char))) := by
  have h1 : orderFulfilledTemplate.textTemplate.toList =
      ("Hi \x7b\x7bcustomerName\x7d\x7d, your order #\x7b\x7borderNumber\x7d\x7d has been shipped!").toList ++
        (openMarkerL ("trackingNumber").toList ++
          ((" Tracking number: \x7b\x7btrackingNumber\x7d\x7d").toList ++
            closeMarkerL ("trackingNumber").toList ++
            (openMarkerL ("carrier").toList ++
              ((" Carrier: \x7b\x7bcarrier\x7d\x7d").toList ++ closeMarkerL ("carrier").toList ++
                ([] : List Char))))) := by rfl
  rw [h1]
  rw [processBlocks_append d (by decide)]
  rw [processBlocks_block d (by decide) (by decide) (by decide)]
  rw [processBlocks_block d (by decide) (by decide) (by decide)]
  rw [processBlocks_nil]
  rfl

theorem processBlocks_orderCancelled (d : DataRec) :
    processBlocks d orderCancelledTemplate.textTemplate.toList =
      ("Hi \x7b\x7bcustomerName\x7d\x7d, your order #\x7b\x7borderNumber\x7d\x7d from \x7b\x7bshopName\x7d\x7d has been cancelled.").toList ++
        ((if blockCond d "refundAmount" then
            (" Refund amount: \x7b\x7brefundAmount\x7d\x7d\x7b\x7bcurrency\x7d\x7d").toList else []) ++
          ([] : List Char)) := by
  have h1 : orderCancelledTemplate.textTemplate.toList =
      ("Hi \x7b\x7bcustomerName\x7d\x7d, your order #\x7b\x7borderNumber\x7d\x7d from \x7b\x7bshopName\x7d\x7d has been cancelled.").toList ++
        (openMarkerL ("refundAmount").toList ++
          ((" Refund amount: \x7b\x7brefundAmount\x7d\x7d\x7b\x7bcurrency\x7d\x7d").toList ++
            closeMarkerL ("refundAmount").toList ++ ([] : List Char))) := by rfl
  rw [h1]
  rw [processBlocks_append d (by decide)]
  rw [processBlocks_block d (by decide) (by decide) (by decide)]
  rw [processBlocks_nil]
  rfl

theorem processBlocks_cartRecovery (d : DataRec) :
    processBlocks d cartRecoveryTemplate.textTemplate.toList =
      ("Hi \x7b\x7bcustomerName\x7d\x7d, you left items in your cart at \x7b\x7bshopName\x7d\x7d! Complete your purchase: \x7b\x7bcartUrl\x7d\x7d").toList ++
        ((if blockCond d "itemCount" then
            (" (\x7b\x7bitemCount\x7d\x7d items)").toList else []) ++
          ((if blockCond d "cartTotal" then
            (" Total: \x7b\x7bcartTotal\x7d\x7d").toList else []) ++ ([] : List Char))) := by
  have h1 : cartRecoveryTemplate.textTemplate.toList =
      ("Hi \x7b\x7bcustomerName\x7d\x7d, you left items in your cart at \x7b\x7bshopName\x7d\x7d! Complete your purchase: \x7b\x7bcartUrl\x7d\x7d").toList ++
        (openMarkerL ("itemCount").toList ++
          ((" (\x7b\x7bitemCount\x7d\x7d items)").toList ++ closeMarkerL ("itemCount").toList ++
            (openMarkerL ("cartTotal").toList ++
              ((" Total: \x7b\x7bcartTotal\x7d\x7d").toList ++ closeMarkerL ("cartTotal").toList ++
                ([] : List Char))))) := by rfl
  rw [h1]
  rw [processBlocks_append d (by decide)]
  rw [processBlocks_block d (by decide) (by decide) (by decide)]
  rw [processBlocks_block d (by decide) (by decide) (by decide)]
  rw [processBlocks_nil]
  rfl

set_option maxRecDepth 8192 in
/-- Claim C2 (amended): for every registered template with (non-nested)
conditional blocks and every record `d`, the block-processed body equals
the literal text around the blocks with each block replaced by its inner
content when the condition field is JS-truthy in `d` and by nothing when
it is falsy (the markers never survive a matched block); the block
condition is exactly JS truthiness of `data[fieldName]`; conditional
blocks are resolved strictly before placeholder substitution
(`renderedBody` normalizes the substitution of the block-processed
body); and in the end-to-end renders of `ORDER_FULFILLED` the suppressed
block leaves no trace while the kept block's placeholder is
substituted. -/
theorem conditional_blocks_before_substitution :
    (∀ d, processBlocks d orderFulfilledTemplate.textTemplate.toList =
      ("Hi \x7b\x7bcustomerName\x7d\x7d, your order #\x7b\x7borderNumber\x7d\x7d has been shipped!").toList ++
        ((if blockCond d "trackingNumber" then
            (" Tracking number: \x7b\x7btrackingNumber\x7d\x7d").toList else []) ++
          ((if blockCond d "carrier" then (" Carrier: \x7b\x7bcarrier\x7d\x7d").toList else []) ++
            ([] : List Char)))) ∧
    (∀ d, processBlocks d orderCancelledTemplate.textTemplate.toList =
      ("Hi \x7b\x7bcustomerName\x7d\x7d, your order #\x7b\x7borderNumber\x7d\x7d from \x7b\x7bshopName\x7d\x7d has been cancelled.").toList ++
        ((if blockCond d "refundAmount" then
            (" Refund amount: \x7b\x7brefundAmount\x7d\x7d\x7b\x7bcurrency\x7d\x7d").toList else []) ++
          ([] : List Char))) ∧
    (∀ d, processBlocks d cartRecoveryTemplate.textTemplate.toList =
      ("Hi \x7b\x7bcustomerName\x7d\x7d, you left items in your cart at \x7b\x7bshopName\x7d\x7d! Complete your purchase: \x7b\x7bcartUrl\x7d\x7d").toList ++
        ((if blockCond d "itemCount" then
            (" (\x7b\x7bitemCount\x7d\x7d items)").toList else []) ++
          ((if blockCond d "cartTotal" then
            (" Total: \x7b\x7bcartTotal\x7d\x7d").toList else []) ++ ([] : List Char)))) ∧
    (∀ d f, blockCond d f = jsTruthyOpt (dlookup d f)) ∧
    (∀ t d, renderedBody t d =
      String.mk (normalizeWs (substAll d (processBlocks d t.textTemplate.toList)))) ∧
    renderTemplate "ORDER_FULFILLED"
        [("customerName", .str "Anna"), ("orderNumber", .str "1001")] =
      .ok "Hi Anna, your order #1001 has been shipped!" ∧
    renderTemplate "ORDER_FULFILLED"
        [("customerName", .str "Anna"), ("orderNumber", .str "1001"),
         ("trackingNumber", .str "T9")] =
      .ok "Hi Anna, your order #1001 has been shipped! Tracking number: T9" :=
  ⟨processBlocks_orderFulfilled, processBlocks_orderCancelled, processBlocks_cartRecovery,
   blockCond_eq_truthy, fun _ _ => rfl, rfl, rfl⟩

/-- A record giving every required field of `ORDER_CANCELLED` plus a
`refundAmount` of numeric zero. -/
def dZeroRefund : DataRec :=
  [("customerName", .str "Anna"), ("orderNumber", .str "1001"),
   ("shopName", .str "Shop"), ("refundAmount", .num 0)]

set_option maxRecDepth 8192 in
/-- Counterexample to claim C2 as stated: `refundAmount` is present and
non-empty in `dZeroRefund` by the claim's notion of presence (its value
is the number `0`, not null/undefined nor an empty string), so the claim
predicts the block content `X` appears in the output; the code drops the
whole block (`data.refundAmount` is falsy), and the output does not even
contain `Refund amount`. -/
theorem conditionalBlock_zero_refund_counterexample :
    ¬ claimMissing (dlookup dZeroRefund "refundAmount") ∧
      dlookup dZeroRefund "refundAmount" = some (Value.num 0) ∧
      renderTemplate "ORDER_CANCELLED" dZeroRefund =
        .ok "Hi Anna, your order #1001 from Shop has been cancelled." ∧
      occursB ("Refund amount").toList
        ("Hi Anna, your order #1001 from Shop has been cancelled.").toList = false := by
  refine ⟨by decide, rfl, rfl, by decide⟩

/-! ### Complete characterization of global replacement (for the
substitution step): split on left-to-right non-overlapping occurrences
and rejoin with the replacement -/

/-- Fuel-driven split of `s` on left-to-right, non-overlapping
occurrences of `pat` (the segments between the matches that
`String.prototype.replace` with flag `g` rewrites). -/
def splitOnSubF (pat : List Char) : Nat → List Char → List (List Char)
  | _, [] => [[]]
  | 0, s => [s]
  | fuel + 1, c :: cs =>
    if pat ≠ [] ∧ lstartsWith pat (c :: cs) = true then
      [] :: splitOnSubF pat fuel (List.drop pat.length (c :: cs))
    else
      match splitOnSubF pat fuel cs with
      | [] => [[c]]
      | l :: ls => (c :: l) :: ls

/-- Split `s` on the occurrences of `pat` that global replacement
rewrites. -/
def splitOnSub (pat s : List Char) : List (List Char) := splitOnSubF pat s.length s

/-- Interleave `sep` between the given segments (inverse of the split,
with `sep` standing where the matches were). -/
def joinWith (sep : List Char) : List (List Char) → List Char
  | [] => []
  | [l] => l
  | l :: l' :: ls => l ++ sep ++ joinWith sep (l' :: ls)

theorem splitOnSubF_ne_nil (pat : List Char) :
    ∀ (fuel : Nat) (s : List Char), splitOnSubF pat fuel s ≠ [] := by
  intro fuel s
  match fuel, s with
  | fuel, [] => cases fuel <;> simp [splitOnSubF]
  | 0, c :: cs => simp [splitOnSubF]
  | f + 1, c :: cs =>
    simp only [splitOnSubF]
    split
    · simp
    · cases hrec : splitOnSubF pat f cs <;> simp

theorem splitOnSubF_congr (pat : List Char) (f1 f2 : Nat) (s : List Char)
    (h1 : s.length ≤ f1) (h2 : s.length ≤ f2) :
    splitOnSubF pat f1 s = splitOnSubF pat f2 s := by
  induction f1 generalizing f2 s with
  | zero =>
    have : s = [] := by cases s <;> simp_all
    subst this
    cases f2 <;> rfl
  | succ f1' ih =>
    cases s with
    | nil => cases f2 <;> rfl
    | cons c cs =>
      cases f2 with
      | zero => simp at h2
      | succ f2' =>
        simp only [splitOnSubF]
        split
        · rename_i hcond
          have hpat : 0 < pat.length := by
            cases hp : pat with
            | nil => exact absurd hp hcond.1
            | cons x xs => simp
          simp only [List.length_cons] at h1 h2
          have hdl : (List.drop pat.length (c :: cs)).length ≤ cs.length := by
            simp only [List.length_drop, List.length_cons]
            omega
          rw [ih f2' _ (by omega) (by omega)]
        · simp only [List.length_cons] at h1 h2
          rw [ih f2' cs (by omega) (by omega)]

theorem splitOnSub_cons_pos {pat : List Char} {c : Char} {cs : List Char}
    (hne : pat ≠ []) (hpre : lstartsWith pat (c :: cs) = true) :
    splitOnSub pat (c :: cs) = [] :: splitOnSub pat (List.drop pat.length (c :: cs)) := by
  have hpat : 0 < pat.length := by
    cases hp : pat with
    | nil => exact absurd hp hne
    | cons x xs => simp
  have hdl : (List.drop pat.length (c :: cs)).length ≤ cs.length := by
    simp only [List.length_drop, List.length_cons]
    omega
  simp only [splitOnSub, List.length_cons, splitOnSubF]
  rw [if_pos ⟨hne, hpre⟩]
  rw [splitOnSubF_congr pat cs.length _ _ (by omega) (le_refl _)]

theorem splitOnSub_cons_neg {pat : List Char} {c : Char} {cs : List Char} {l : List Char}
    {ls : List (List Char)} (h : ¬(pat ≠ [] ∧ lstartsWith pat (c :: cs) = true))
    (hrec : splitOnSub pat cs = l :: ls) :
    splitOnSub pat (c :: cs) = (c :: l) :: ls := by
  simp only [splitOnSub, List.length_cons, splitOnSubF]
  rw [if_neg h]
  have hrec' : splitOnSubF pat cs.length cs = l :: ls := hrec
  rw [hrec']

theorem replaceAll_eq_joinWith (pat rep : List Char) :
    ∀ s, replaceAll pat rep s = joinWith rep (splitOnSub pat s) := by
  suffices h : ∀ (n : Nat) (s : List Char), s.length ≤ n →
      replaceAll pat rep s = joinWith rep (splitOnSub pat s) by
    exact fun s => h s.length s (le_refl _)
  intro n
  induction n with
  | zero =>
    intro s hs
    have : s = [] := by cases s <;> simp_all
    subst this
    rfl
  | succ n ih =>
    intro s hs
    cases s with
    | nil => rfl
    | cons c cs =>
      by_cases hcond : pat ≠ [] ∧ lstartsWith pat (c :: cs) = true
      · have hpat : 0 < pat.length := by
          cases hp : pat with
          | nil => exact absurd hp hcond.1
          | cons x xs => simp
        have hdl : (List.drop pat.length (c :: cs)).length ≤ n := by
          simp only [List.length_cons] at hs
          simp only [List.length_drop, List.length_cons]
          omega
        rw [replaceAll_cons_pos rep hcond.1 hcond.2, splitOnSub_cons_pos hcond.1 hcond.2]
        rw [ih _ hdl]
        cases hL : splitOnSub pat (List.drop pat.length (c :: cs)) with
        | nil => exact absurd hL (splitOnSubF_ne_nil pat _ _)
        | cons l ls => simp [joinWith]
      · obtain ⟨l, ls, hrec⟩ : ∃ l ls, splitOnSub pat cs = l :: ls := by
          cases hL : splitOnSub pat cs with
          | nil => exact absurd hL (splitOnSubF_ne_nil pat _ _)
          | cons l ls => exact ⟨l, ls, rfl⟩
        rw [replaceAll_cons_neg rep hcond, splitOnSub_cons_neg hcond hrec]
        have hcs : cs.length ≤ n := by
          simp only [List.length_cons] at hs
          omega
        rw [ih cs hcs, hrec]
        cases ls with
        | nil => simp [joinWith]
        | cons l2 ls' => simp [joinWith]

theorem splitOnSub_head (pat : List Char) :
    ∀ s, ∃ l ls t, splitOnSub pat s = l :: ls ∧ s = l ++ t := by
  intro s
  cases s with
  | nil => exact ⟨[], [], [], rfl, rfl⟩
  | cons c cs =>
    by_cases hcond : pat ≠ [] ∧ lstartsWith pat (c :: cs) = true
    · exact ⟨[], _, c :: cs, splitOnSub_cons_pos hcond.1 hcond.2, rfl⟩
    · obtain ⟨l, ls, hrec⟩ : ∃ l ls, splitOnSub pat cs = l :: ls := by
        cases hL : splitOnSub pat cs with
        | nil => exact absurd hL (splitOnSubF_ne_nil pat _ _)
        | cons l ls => exact ⟨l, ls, rfl⟩
      obtain ⟨l', ls', t', hsp, hpre⟩ := splitOnSub_head pat cs
      rw [hrec] at hsp
      injection hsp with hl hls
      subst hl hls
      exact ⟨c :: l, ls, t', splitOnSub_cons_neg hcond hrec, by rw [hpre]; rfl⟩
termination_by s => s.length
decreasing_by simp

theorem splitOnSub_parts_pat_free {pat : List Char} (hne : pat ≠ []) :
    ∀ s, ∀ p ∈ splitOnSub pat s, occursB pat p = false := by
  suffices h : ∀ (n : Nat) (s : List Char), s.length ≤ n →
      ∀ p ∈ splitOnSub pat s, occursB pat p = false by
    exact fun s => h s.length s (le_refl _)
  intro n
  induction n with
  | zero =>
    intro s hs p hp
    have : s = [] := by cases s <;> simp_all
    subst this
    simp only [splitOnSub, List.length_nil, splitOnSubF, List.mem_singleton] at hp
    subst hp
    rw [occursB]
    cases hp : pat with
    | nil => exact absurd hp hne
    | cons x xs => simp [splitAtSub, lstartsWith]
  | succ n ih =>
    intro s hs p hp
    cases s with
    | nil =>
      simp only [splitOnSub, List.length_nil, splitOnSubF, List.mem_singleton] at hp
      subst hp
      rw [occursB]
      cases hp : pat with
      | nil => exact absurd hp hne
      | cons x xs => simp [splitAtSub, lstartsWith]
    | cons c cs =>
      have hcs : cs.length ≤ n := by
        simp only [List.length_cons] at hs
        omega
      by_cases hcond : pat ≠ [] ∧ lstartsWith pat (c :: cs) = true
      · rw [splitOnSub_cons_pos hcond.1 hcond.2] at hp
        rcases List.mem_cons.mp hp with rfl | hp'
        · rw [occursB]
          cases hp : pat with
          | nil => exact absurd hp hne
          | cons x xs => simp [splitAtSub, lstartsWith]
        · have hpat : 0 < pat.length := by
            cases hp2 : pat with
            | nil => exact absurd hp2 hne
            | cons x xs => simp
          refine ih _ ?_ p hp'
          simp only [List.length_drop, List.length_cons]
          simp only [List.length_cons] at hs
          omega
      · obtain ⟨l, ls, hrec⟩ : ∃ l ls, splitOnSub pat cs = l :: ls := by
          cases hL : splitOnSub pat cs with
          | nil => exact absurd hL (splitOnSubF_ne_nil pat _ _)
          | cons l ls => exact ⟨l, ls, rfl⟩
        rw [splitOnSub_cons_neg hcond hrec] at hp
        rcases List.mem_cons.mp hp with rfl | hp'
        · have hlfree : occursB pat l = false :=
            ih cs hcs l (by rw [hrec]; exact List.mem_cons_self _ _)
          have hlpre : ∃ t, cs = l ++ t := by
            obtain ⟨l', ls', t', hsp, hpre⟩ := splitOnSub_head pat cs
            rw [hrec] at hsp
            injection hsp with hl _
            subst hl
            exact ⟨t', hpre⟩
          have hhead : lstartsWith pat (c :: l) = false := by
            by_contra hcl
            rw [Bool.not_eq_false] at hcl
            obtain ⟨u, hu⟩ := (lstartsWith_iff _ _).mp hcl
            obtain ⟨t, rfl⟩ := hlpre
            have : lstartsWith pat (c :: (l ++ t)) = true := by
              rw [lstartsWith_iff]
              refine ⟨u ++ t, ?_⟩
              have : c :: (l ++ t) = (c :: l) ++ t := rfl
              rw [this, hu]
              simp
            exact hcond ⟨hne, this⟩
          rw [occursB, splitAtSub]
          rw [if_neg (by simp [hhead])]
          have hnone : splitAtSub pat l = none := by
            cases hsp : splitAtSub pat l with
            | none => rfl
            | some r =>
              have : occursB pat l = true := by rw [occursB, hsp]; rfl
              rw [this] at hlfree
              cases hlfree
          rw [hnone]
          rfl
        · exact ih cs hcs p (by rw [hrec]; exact List.mem_cons_of_mem _ hp')

/-! ### The `$`-aware semantics of the substitution step -/

/-- `GetSubstitution` for a string replacement (ES `String.prototype.replace`)
specialized to the engine's placeholder regexes, which have no capture
groups and no named groups: `$$` inserts `$`, `$&` inserts the matched
text, `$`+backquote inserts the part of the subject string before the
match, `$`+apostrophe inserts the part after the match, and every other
`$`-sequence (`$n` with no such capture, `$<`, a trailing `$`) is passed
through literally. -/
def gsAux (matched before after : List Char) : Bool → List Char → List Char
  | false, [] => []
  | true, [] => ['$']
  | false, c :: r =>
    if c = '$' then gsAux matched before after true r
    else c :: gsAux matched before after false r
  | true, c2 :: r2 =>
    if c2 = '$' then '$' :: gsAux matched before after false r2
    else if c2 = '&' then matched ++ gsAux matched before after false r2
    else if c2 = '\x60' then before ++ gsAux matched before after false r2
    else if c2 = '\x27' then after ++ gsAux matched before after false r2
    else '$' :: c2 :: gsAux matched before after false r2

/-- The replacement template scan itself, entered via the state
scanner `gsAux` (the flag records a pending `$`). -/
def getSubstitution (matched before after rep : List Char) : List Char :=
  gsAux matched before after false rep

/-- Reassemble the segments of `splitOnSub`, inserting at each match
site the `getSubstitution` of the replacement, with the match's before
text (`acc ++ p`, the original prefix up to the match) and after text
(the remaining segments rejoined by the pattern, i.e. the original
suffix) — exactly how ES builds the replacement result from the
collected matches and their positions in the original string. -/
def subJoin (pat rep : List Char) : List Char → List (List Char) → List Char
  | _, [] => []
  | _, [p] => p
  | acc, p :: p2 :: ps =>
    p ++ getSubstitution pat (acc ++ p) (joinWith pat (p2 :: ps)) rep ++
      subJoin pat rep (acc ++ p ++ pat) (p2 :: ps)

/-- `rendered.replace(new RegExp("\\{\\{key\\}\\}", "g"), replacement)`
with a string replacement, for a word-character-identifier key (so the
raw-interpolated key compiles to the literal pattern): all
non-overlapping leftmost occurrences are rewritten, each by
`getSubstitution` of the replacement at that match. -/
def jsReplaceAll (pat rep s : List Char) : List Char :=
  subJoin pat rep [] (splitOnSub pat s)

/-- One iteration of the substitution loop body with the full string
semantics of the source's `replace` call (for identifier keys). -/
def substStepJs (acc : List Char) (kv : String × Value) : List Char :=
  jsReplaceAll (wrapPh kv.1) (jsString kv.2).toList acc

/-- Step 5 of `renderTemplate` with the full string semantics of
`replace`: the `$`-aware general form of `substAll`. -/
def substAllJs (d : DataRec) (s : List Char) : List Char :=
  d.foldl substStepJs s

theorem getSubstitution_no_dollar (m b a : List Char) :
    ∀ rep, '$' ∉ rep → getSubstitution m b a rep = rep := by
  intro rep
  induction rep with
  | nil => intro _; rfl
  | cons c r ih =>
    intro h
    have hc : ¬(c = '$') := by
      intro hcd
      exact h (by rw [hcd]; exact List.mem_cons_self _ _)
    show gsAux m b a false (c :: r) = c :: r
    simp only [gsAux]
    rw [if_neg hc]
    exact congrArg (c :: ·) (ih (fun hm => h (List.mem_cons_of_mem c hm)))

theorem subJoin_no_dollar {rep : List Char} (h : '$' ∉ rep) (pat : List Char) :
    ∀ (pieces : List (List Char)) (acc : List Char),
      subJoin pat rep acc pieces = joinWith rep pieces := by
  intro pieces
  induction pieces with
  | nil => intro acc; rfl
  | cons p ps ih =>
    intro acc
    cases ps with
    | nil => rfl
    | cons p2 ps' =>
      simp only [subJoin, joinWith]
      rw [getSubstitution_no_dollar _ _ _ rep h, ih (acc ++ p ++ pat)]

theorem splitOnSub_joinWith (pat : List Char) :
    ∀ s, joinWith pat (splitOnSub pat s) = s := by
  suffices h : ∀ (n : Nat) (s : List Char), s.length ≤ n →
      joinWith pat (splitOnSub pat s) = s by
    exact fun s => h s.length s (le_refl _)
  intro n
  induction n with
  | zero =>
    intro s hs
    have : s = [] := by cases s <;> simp_all
    subst this
    rfl
  | succ n ih =>
    intro s hs
    cases s with
    | nil => rfl
    | cons c cs =>
      by_cases hcond : pat ≠ [] ∧ lstartsWith pat (c :: cs) = true
      · have hpat : 0 < pat.length := by
          cases hp : pat with
          | nil => exact absurd hp hcond.1
          | cons x xs => simp
        obtain ⟨t, ht⟩ := (lstartsWith_iff pat (c :: cs)).mp hcond.2
        have hdrop : List.drop pat.length (c :: cs) = t := by rw [ht, List.drop_left]
        have hlen : (List.drop pat.length (c :: cs)).length ≤ n := by
          simp only [List.length_drop, List.length_cons]
          simp only [List.length_cons] at hs
          omega
        have hIH := ih _ hlen
        rw [splitOnSub_cons_pos hcond.1 hcond.2]
        cases hL : splitOnSub pat (List.drop pat.length (c :: cs)) with
        | nil => exact absurd hL (splitOnSubF_ne_nil pat _ _)
        | cons l ls =>
          rw [hL] at hIH
          have hjw : joinWith pat ([] :: l :: ls) = pat ++ joinWith pat (l :: ls) := by
            simp [joinWith]
          rw [hjw, hIH, hdrop, ht]
      · obtain ⟨l, ls, hrec⟩ : ∃ l ls, splitOnSub pat cs = l :: ls := by
          cases hL : splitOnSub pat cs with
          | nil => exact absurd hL (splitOnSubF_ne_nil pat _ _)
          | cons l ls => exact ⟨l, ls, rfl⟩
        have hlen : cs.length ≤ n := by
          simp only [List.length_cons] at hs
          omega
        have hIH := ih cs hlen
        rw [hrec] at hIH
        rw [splitOnSub_cons_neg hcond hrec]
        cases ls with
        | nil =>
          have hl : l = cs := hIH
          rw [show joinWith pat [c :: l] = c :: l from rfl, hl]
        | cons l2 ls' =>
          rw [show joinWith pat ((c :: l) :: l2 :: ls') =
            c :: (l ++ pat ++ joinWith pat (l2 :: ls')) from rfl]
          rw [show l ++ pat ++ joinWith pat (l2 :: ls') =
            joinWith pat (l :: l2 :: ls') from rfl, hIH]

theorem jsReplaceAll_no_dollar {rep : List Char} (h : '$' ∉ rep) (pat s : List Char) :
    jsReplaceAll pat rep s = replaceAll pat rep s := by
  rw [jsReplaceAll, subJoin_no_dollar h, ← replaceAll_eq_joinWith]

theorem substAllJs_eq_substAll :
    ∀ (d : DataRec), (∀ kv ∈ d, '$' ∉ (jsString kv.2).toList) →
      ∀ s, substAllJs d s = substAll d s := by
  intro d
  induction d with
  | nil => intro _ s; rfl
  | cons kv d' ih =>
    intro h s
    have hstep : substStepJs s kv = substStep s kv :=
      jsReplaceAll_no_dollar (h kv (List.mem_cons_self _ _)) _ s
    have h1 : substAllJs (kv :: d') s = substAllJs d' (substStepJs s kv) := rfl
    have h2 : substAll (kv :: d') s = substAll d' (substStep s kv) := rfl
    rw [h1, h2, hstep, ih (fun x hx => h x (List.mem_cons_of_mem _ hx)) _]

/-- Counterexample to claim C8 as stated: for `customerName` with the
string value `Anna $$`, `String(value)` is `Anna $$`, but the `replace`
call substitutes the `{{customerName}}` occurrence by the
`GetSubstitution` of that string — `Anna $` — not by `String(value)`
itself (literal insertion, shown alongside, would give `Anna $$`). -/
theorem substitution_dollar_counterexample :
    jsString (Value.str "Anna $$") = "Anna $$" ∧
      jsReplaceAll (wrapPh "customerName") (jsString (Value.str "Anna $$")).toList
        ("Hi \x7b\x7bcustomerName\x7d\x7d!").toList = ("Hi Anna $!").toList ∧
      replaceAll (wrapPh "customerName") (jsString (Value.str "Anna $$")).toList
        ("Hi \x7b\x7bcustomerName\x7d\x7d!").toList = ("Hi Anna $$!").toList ∧
      ("Hi Anna $!").toList ≠ ("Hi Anna $$!").toList := by
  refine ⟨rfl, by decide, by decide, by decide⟩

/-- Claim C8 (amended): step 5 substitutes, one record entry at a time
in record order, every remaining occurrence of `{{key}}` (identifier
keys) by the `GetSubstitution` of `String(value)` at that match — which
is exactly `String(value)` whenever it contains no `$`; null/undefined
substitutes as the empty string.  The conjuncts: the loop is a fold of
per-key `$`-aware global replacement; the `$`-sequence rules; splitting
on the non-overlapping leftmost occurrences decomposes the subject
exactly, with every remaining segment pattern-free; the `$`-free
specialization inserts `String(value)` literally at every occurrence;
and on records whose stringified values are `$`-free the `$`-aware loop
agrees with the literal-insertion loop used by the renderer model. -/
theorem substitution_replaces_by_getSubstitution :
    (∀ (d : DataRec) (s : List Char), substAllJs d s = d.foldl substStepJs s) ∧
      (∀ (k : String) (v : Value) (s : List Char),
        substStepJs s (k, v) = jsReplaceAll (wrapPh k) (jsString v).toList s) ∧
      jsString Value.null = "" ∧
      (∀ (m b a r : List Char),
        getSubstitution m b a ('$' :: '$' :: r) = '$' :: getSubstitution m b a r ∧
        getSubstitution m b a ('$' :: '&' :: r) = m ++ getSubstitution m b a r ∧
        getSubstitution m b a ('$' :: '\x60' :: r) = b ++ getSubstitution m b a r ∧
        getSubstitution m b a ('$' :: '\x27' :: r) = a ++ getSubstitution m b a r) ∧
      (∀ (m b a rep : List Char), '$' ∉ rep → getSubstitution m b a rep = rep) ∧
      (∀ pat s, joinWith pat (splitOnSub pat s) = s) ∧
      (∀ pat s, pat ≠ [] → ∀ p ∈ splitOnSub pat s, occursB pat p = false) ∧
      (∀ (pat rep s : List Char), '$' ∉ rep →
        jsReplaceAll pat rep s = joinWith rep (splitOnSub pat s)) ∧
      (∀ (d : DataRec) (s : List Char), (∀ kv ∈ d, '$' ∉ (jsString kv.2).toList) →
        substAllJs d s = substAll d s) :=
  ⟨fun _ _ => rfl, fun _ _ _ => rfl, rfl,
   fun m b a r => ⟨rfl, rfl, rfl, rfl⟩,
   fun m b a rep h => getSubstitution_no_dollar m b a rep h,
   fun pat s => splitOnSub_joinWith pat s,
   fun _ s hne => splitOnSub_parts_pat_free hne s,
   fun pat rep s h => by rw [jsReplaceAll, subJoin_no_dollar h],
   fun d s h => substAllJs_eq_substAll d h s⟩

/-- Witness for C8's amended theorem at the `ORDER_UPDATED` body, the
`orderStatus` placeholder, and the `$`-free replacement `SHIPPED`. -/
theorem substitution_replaces_by_getSubstitution_witness :
    getSubstitution (wrapPh "orderStatus") [] [] ("SHIPPED").toList = ("SHIPPED").toList ∧
      (∀ p ∈ splitOnSub (wrapPh "orderStatus") (orderUpdatedTemplate.textTemplate.toList),
        occursB (wrapPh "orderStatus") p = false) ∧
      jsReplaceAll (wrapPh "orderStatus") ("SHIPPED").toList
          (orderUpdatedTemplate.textTemplate.toList) =
        joinWith ("SHIPPED").toList
          (splitOnSub (wrapPh "orderStatus") (orderUpdatedTemplate.textTemplate.toList)) ∧
      substAllJs [("orderStatus", Value.str "SHIPPED")]
          (orderUpdatedTemplate.textTemplate.toList) =
        substAll [("orderStatus", Value.str "SHIPPED")]
          (orderUpdatedTemplate.textTemplate.toList) :=
  ⟨substitution_replaces_by_getSubstitution.2.2.2.2.1 (wrapPh "orderStatus") [] []
      ("SHIPPED").toList (by decide),
   substitution_replaces_by_getSubstitution.2.2.2.2.2.2.1 (wrapPh "orderStatus")
      (orderUpdatedTemplate.textTemplate.toList) (by decide),
   substitution_replaces_by_getSubstitution.2.2.2.2.2.2.2.1 (wrapPh "orderStatus")
      ("SHIPPED").toList (orderUpdatedTemplate.textTemplate.toList) (by decide),
   substitution_replaces_by_getSubstitution.2.2.2.2.2.2.2.2
      [("orderStatus", Value.str "SHIPPED")] (orderUpdatedTemplate.textTemplate.toList)
      (by decide)⟩

/-! ### Word characters, whitespace, and placeholder-pattern overlap -/

theorem wordChar_not_ws {c : Char} (h : wordChar c = true) : wsChar c = false := by
  have hn : (0x41 ≤ c.toNat ∧ c.toNat ≤ 0x5a) ∨ (0x61 ≤ c.toNat ∧ c.toNat ≤ 0x7a) ∨
      (0x30 ≤ c.toNat ∧ c.toNat ≤ 0x39) ∨ c.toNat = 0x5f := by
    simpa [wordChar, Bool.or_eq_true, Bool.and_eq_true, decide_eq_true_eq, or_assoc] using h
  rw [Bool.eq_false_iff]
  intro hws
  have hw : c.toNat = 0x20 ∨ c.toNat = 0x9 ∨ c.toNat = 0xa ∨ c.toNat = 0xb ∨
      c.toNat = 0xc ∨ c.toNat = 0xd ∨ c.toNat = 0xa0 ∨ c.toNat = 0x1680 ∨
      (0x2000 ≤ c.toNat ∧ c.toNat ≤ 0x200a) ∨ c.toNat = 0x2028 ∨ c.toNat = 0x2029 ∨
      c.toNat = 0x202f ∨ c.toNat = 0x205f ∨ c.toNat = 0x3000 ∨ c.toNat = 0xfeff := by
    simpa [wsChar, Bool.or_eq_true, Bool.and_eq_true, decide_eq_true_eq, or_assoc] using hws
  omega

theorem wordChar_ne_lbrace {c : Char} (h : wordChar c = true) : c ≠ '\x7b' := by
  intro hc
  rw [hc] at h
  exact absurd h (by decide)

theorem wordChar_ne_rbrace {c : Char} (h : wordChar c = true) : c ≠ '\x7d' := by
  intro hc
  rw [hc] at h
  exact absurd h (by decide)

theorem wrapPh_wsfree (g : String) (hgw : ∀ c ∈ g.toList, wordChar c = true) :
    ∀ c ∈ wrapPh g, wsChar c = false := by
  intro c hc
  rw [wrapPh] at hc
  rcases List.mem_cons.mp hc with rfl | hc1
  · decide
  rcases List.mem_cons.mp hc1 with rfl | hc2
  · decide
  rcases List.mem_append.mp hc2 with hcg | hcbr
  · exact wordChar_not_ws (hgw c hcg)
  · rcases List.mem_cons.mp hcbr with rfl | hcbr2
    · decide
    · rcases List.mem_cons.mp hcbr2 with rfl | hnil
      · decide
      · simp at hnil

/-- Two word runs followed by a closing brace agree: name matching in
placeholder patterns is exact. -/
theorem word_run_unique : ∀ (g k x y : List Char), (∀ c ∈ g, wordChar c = true) →
    (∀ c ∈ k, wordChar c = true) → g ++ '\x7d' :: x = k ++ '\x7d' :: y → g = k := by
  intro g
  induction g with
  | nil =>
    intro k x y _ hk h
    cases k with
    | nil => rfl
    | cons c k' =>
      rw [List.nil_append, List.cons_append] at h
      injection h with h1 _
      have := hk c (by simp)
      rw [← h1] at this
      exact absurd this (by decide)
  | cons a g' ih =>
    intro k x y hg hk h
    cases k with
    | nil =>
      rw [List.nil_append, List.cons_append] at h
      injection h with h1 _
      have := hg a (by simp)
      rw [h1] at this
      exact absurd this (by decide)
    | cons c k' =>
      rw [List.cons_append, List.cons_append] at h
      injection h with h1 h2
      rw [h1]
      rw [ih k' x y (fun z hz => hg z (by simp [hz])) (fun z hz => hk z (by simp [hz])) h2]

/-- If an opening brace sits where a word run followed by `}}` must be,
the brace lies past the whole run: a `{{` cannot start inside
`k ++ "}}"`. -/
theorem lbrace_past_word_run : ∀ (k a z y : List Char), (∀ c ∈ k, wordChar c = true) →
    a ++ '\x7b' :: z = k ++ '\x7d' :: '\x7d' :: y → k.length + 2 ≤ a.length := by
  intro k
  induction k with
  | nil =>
    intro a z y _ h
    cases a with
    | nil =>
      rw [List.nil_append, List.nil_append] at h
      injection h with h1 _
      exact absurd h1 (by decide)
    | cons x1 a' =>
      cases a' with
      | nil =>
        rw [List.nil_append] at h
        injection h with _ h2
        injection h2 with h3 _
        exact absurd h3 (by decide)
      | cons x2 a'' => simp
  | cons c k' ih =>
    intro a z y hk h
    cases a with
    | nil =>
      rw [List.nil_append, List.cons_append] at h
      injection h with h1 _
      have := hk c (by simp)
      rw [← h1] at this
      exact absurd this (by decide)
    | cons x a' =>
      rw [List.cons_append, List.cons_append] at h
      injection h with _ h2
      have := ih a' z y (fun w hw => hk w (by simp [hw])) h2
      simp only [List.length_cons]
      omega

theorem lstartsWith_take {pat a rest : List Char}
    (h : lstartsWith pat (a ++ rest) = true) (hle : pat.length ≤ a.length) :
    ∃ a', a = pat ++ a' := by
  obtain ⟨t, ht⟩ := (lstartsWith_iff _ _).mp h
  refine ⟨a.drop pat.length, ?_⟩
  have h1 : (a ++ rest).take pat.length = pat := by
    rw [ht, List.take_left]
  have h2 : (a ++ rest).take pat.length = a.take pat.length := by
    rw [List.take_append_of_le_length hle]
  have h3 : a.take pat.length = pat := by rw [← h2, h1]
  conv_lhs => rw [← List.take_append_drop pat.length a]
  rw [h3]

/-- A placeholder pattern `{{k}}` matching at the start of
`a ++ {{g}} ++ b` for a different name `g` lies entirely inside `a`:
distinct placeholder occurrences cannot overlap. -/
theorem placeholder_no_overlap {g k : String}
    (hgw : ∀ c ∈ g.toList, wordChar c = true) (hk : k.toList ≠ [])
    (hkw : ∀ c ∈ k.toList, wordChar c = true) (hne : g.toList ≠ k.toList)
    {a b : List Char}
    (hpre : lstartsWith (wrapPh k) (a ++ wrapPh g ++ b) = true) :
    (wrapPh k).length ≤ a.length := by
  obtain ⟨t, ht⟩ := (lstartsWith_iff _ _).mp hpre
  have hwrapk : wrapPh k = '\x7b' :: '\x7b' :: (k.toList ++ ['\x7d', '\x7d']) := rfl
  have hwrapg : wrapPh g = '\x7b' :: '\x7b' :: (g.toList ++ ['\x7d', '\x7d']) := rfl
  have hlen : (wrapPh k).length = k.toList.length + 4 := by
    rw [hwrapk]; simp
  rw [hwrapk, hwrapg] at ht
  simp only [List.append_assoc, List.cons_append, List.nil_append,
    List.singleton_append] at ht
  cases a with
  | nil =>
    exfalso
    rw [List.nil_append] at ht
    injection ht with _ ht1
    injection ht1 with _ ht2
    exact hne (word_run_unique g.toList k.toList ('\x7d' :: b) ('\x7d' :: t) hgw hkw ht2)
  | cons x1 a1 =>
    cases a1 with
    | nil =>
      exfalso
      simp only [List.cons_append, List.nil_append] at ht
      injection ht with _ ht1
      injection ht1 with _ ht2
      cases hkl : k.toList with
      | nil => exact hk hkl
      | cons c k' =>
        rw [hkl, List.cons_append] at ht2
        injection ht2 with h1 _
        have := hkw c (by rw [hkl]; simp)
        rw [← h1] at this
        exact absurd this (by decide)
    | cons x2 a2 =>
      simp only [List.cons_append] at ht
      injection ht with _ ht1
      injection ht1 with _ ht2
      have hS : k.toList.length + 2 ≤ a2.length :=
        lbrace_past_word_run k.toList a2
          ('\x7b' :: (g.toList ++ '\x7d' :: '\x7d' :: b)) t hkw ht2
      rw [hlen]
      simp only [List.length_cons]
      omega

theorem occursB_wrapPh_nil (g : String) : occursB (wrapPh g) [] = false := rfl

/-- Replacement passes over a region in which no match starts. -/
theorem replaceAll_append_free {pat rep b : List Char} :
    ∀ u : List Char, (∀ u1 u2, u = u1 ++ u2 → u2 ≠ [] → lstartsWith pat (u2 ++ b) = false) →
    replaceAll pat rep (u ++ b) = u ++ replaceAll pat rep b := by
  intro u
  induction u with
  | nil => intro _; rfl
  | cons c cs ih =>
    intro h
    have hhead : lstartsWith pat ((c :: cs) ++ b) = false := h [] (c :: cs) rfl (by simp)
    rw [List.cons_append] at hhead ⊢
    rw [replaceAll_cons_neg rep (fun hand => by rw [hand.2] at hhead; cases hhead)]
    rw [ih (fun u1 u2 hu hne => h (c :: u1) u2 (by rw [hu]; rfl) hne)]
    rfl

/-- One global replacement of `{{k}}` preserves every occurrence of a
differently-named `{{g}}` (word names; the replacement text is inserted
only over `{{k}}` occurrences, which cannot overlap a `{{g}}`
occurrence). -/
theorem occursB_replaceAll_other {g k : String}
    (hgne : g.toList ≠ []) (hgw : ∀ c ∈ g.toList, wordChar c = true)
    (hkne : k.toList ≠ []) (hkw : ∀ c ∈ k.toList, wordChar c = true)
    (hne : g.toList ≠ k.toList) (rep : List Char) :
    ∀ s, occursB (wrapPh g) s = true →
      occursB (wrapPh g) (replaceAll (wrapPh k) rep s) = true := by
  suffices hmain : ∀ (n : Nat) (s : List Char), s.length ≤ n → occursB (wrapPh g) s = true →
      occursB (wrapPh g) (replaceAll (wrapPh k) rep s) = true by
    exact fun s => hmain s.length s (le_refl _)
  intro n
  induction n with
  | zero =>
    intro s hs h
    have : s = [] := by cases s <;> simp_all
    subst this
    rw [occursB_wrapPh_nil] at h
    cases h
  | succ n ih =>
    intro s hs h
    cases s with
    | nil =>
      rw [occursB_wrapPh_nil] at h
      cases h
    | cons c cs =>
      have hwne : wrapPh k ≠ [] := by
        rw [show wrapPh k = '\x7b' :: '\x7b' :: (k.toList ++ ['\x7d', '\x7d']) from rfl]
        simp
      obtain ⟨a, b, hab⟩ : ∃ a b, c :: cs = a ++ wrapPh g ++ b := by
        obtain ⟨a, b, hab⟩ := (occursB_iff _ _).mp h
        exact ⟨a, b, hab⟩
      by_cases hcond : lstartsWith (wrapPh k) (c :: cs) = true
      · have hpre2 : lstartsWith (wrapPh k) (a ++ wrapPh g ++ b) = true := by
          rw [← hab]; exact hcond
        have hover : (wrapPh k).length ≤ a.length :=
          placeholder_no_overlap hgw hkne hkw hne hpre2
        have hpre3 : lstartsWith (wrapPh k) (a ++ (wrapPh g ++ b)) = true := by
          rw [← List.append_assoc]; exact hpre2
        obtain ⟨a', ha'⟩ := lstartsWith_take hpre3 hover
        have hdrop : List.drop (wrapPh k).length (c :: cs) = a' ++ (wrapPh g ++ b) := by
          have hcs2 : c :: cs = wrapPh k ++ (a' ++ (wrapPh g ++ b)) := by
            rw [hab, ha']
            simp [List.append_assoc]
          rw [hcs2, List.drop_left]
        rw [replaceAll_cons_pos rep hwne hcond]
        have hlen : (List.drop (wrapPh k).length (c :: cs)).length ≤ n := by
          have hpos : 0 < (wrapPh k).length := by
            cases hp : wrapPh k with
            | nil => exact absurd hp hwne
            | cons x xs => simp
          simp only [List.length_drop, List.length_cons]
          simp only [List.length_cons] at hs
          omega
        refine occursB_append_right rep (ih _ hlen ?_)
        rw [hdrop, occursB, splitAtSub_isSome_iff]
        exact ⟨a', b, by simp [List.append_assoc]⟩
      · rw [replaceAll_cons_neg rep (fun hand => hcond hand.2)]
        cases a with
        | cons a0 a' =>
          rw [List.cons_append, List.cons_append] at hab
          injection hab with h1 h2
          have hcs : occursB (wrapPh g) cs = true := by
            rw [h2, occursB, splitAtSub_isSome_iff]
            exact ⟨a', b, by simp [List.append_assoc]⟩
          have hlen : cs.length ≤ n := by
            simp only [List.length_cons] at hs
            omega
          exact occursB_cons c (ih cs hlen hcs)
        | nil =>
          rw [List.nil_append] at hab
          have hwg : wrapPh g = '\x7b' :: ('\x7b' :: (g.toList ++ ['\x7d', '\x7d'])) := rfl
          rw [hwg, List.cons_append] at hab
          injection hab with h1 h2
          subst h1
          obtain ⟨gc, g', hgl⟩ : ∃ gc g', g.toList = gc :: g' := by
            cases hgl' : g.toList with
            | nil => exact absurd hgl' hgne
            | cons gc g' => exact ⟨gc, g', rfl⟩
          have hgc : wordChar gc = true := hgw gc (by rw [hgl]; simp)
          have hgcne : ('\x7b' == gc) = false := by
            rw [beq_eq_false_iff_ne]
            exact fun hx => (wordChar_ne_lbrace hgc) hx.symm
          have hfree : ∀ u1 u2, ('\x7b' :: (g.toList ++ ['\x7d', '\x7d'])) = u1 ++ u2 →
              u2 ≠ [] → lstartsWith (wrapPh k) (u2 ++ b) = false := by
            intro u1 u2 hu hne2
            cases u2 with
            | nil => exact absurd rfl hne2
            | cons c2 r2 =>
              cases u1 with
              | nil =>
                rw [List.nil_append] at hu
                injection hu with hu1 hu2
                subst hu1
                subst hu2
                rw [show wrapPh k = '\x7b' :: ('\x7b' :: (k.toList ++ ['\x7d', '\x7d'])) from rfl]
                rw [List.cons_append, lstartsWith]
                have hsecond : lstartsWith ('\x7b' :: (k.toList ++ ['\x7d', '\x7d']))
                    ((g.toList ++ ['\x7d', '\x7d']) ++ b) = false := by
                  rw [hgl, List.cons_append, List.cons_append, lstartsWith, hgcne]
                  rfl
                rw [hsecond]
                simp
              | cons u0 u1' =>
                rw [List.cons_append] at hu
                injection hu with _ hu2
                have hc2mem : c2 ∈ g.toList ++ ['\x7d', '\x7d'] := by
                  rw [hu2]
                  exact List.mem_append_right u1' (by simp)
                have hc2 : c2 ≠ '\x7b' := by
                  rcases List.mem_append.mp hc2mem with hcg | hcbr
                  · exact wordChar_ne_lbrace (hgw c2 hcg)
                  · rcases List.mem_cons.mp hcbr with rfl | hcbr2
                    · decide
                    · rcases List.mem_cons.mp hcbr2 with rfl | hnil
                      · decide
                      · simp at hnil
                rw [show wrapPh k = '\x7b' :: ('\x7b' :: (k.toList ++ ['\x7d', '\x7d'])) from rfl]
                rw [List.cons_append, lstartsWith]
                have : ('\x7b' == c2) = false := by
                  rw [beq_eq_false_iff_ne]
                  exact fun hx => hc2 hx.symm
                rw [this]
                rfl
          have hrw : replaceAll (wrapPh k) rep cs =
              ('\x7b' :: (g.toList ++ ['\x7d', '\x7d'])) ++ replaceAll (wrapPh k) rep b := by
            rw [h2]
            exact replaceAll_append_free _ hfree
          rw [hrw]
          rw [occursB, splitAtSub_isSome_iff]
          exact ⟨[], replaceAll (wrapPh k) rep b, rfl⟩

/-- The whole substitution loop preserves every occurrence of a
placeholder whose name is not a key of the record. -/
theorem occursB_substAll {g : String} (hgne : g.toList ≠ [])
    (hgw : ∀ c ∈ g.toList, wordChar c = true) :
    ∀ (d : DataRec),
      (∀ kv ∈ d, kv.1.toList ≠ [] ∧ ∀ c ∈ kv.1.toList, wordChar c = true) →
      (∀ kv ∈ d, kv.1 ≠ g) →
      ∀ s, occursB (wrapPh g) s = true → occursB (wrapPh g) (substAll d s) = true := by
  intro d
  induction d with
  | nil => exact fun _ _ s h => h
  | cons kv d' ih =>
    intro hkeys hnot s h
    have hstep : substAll (kv :: d') s =
        substAll d' (replaceAll (wrapPh kv.1) (jsString kv.2).toList s) := rfl
    rw [hstep]
    have hkv := hkeys kv (by simp)
    have hkne : g.toList ≠ kv.1.toList := by
      intro hl
      have : g = kv.1 := by
        have := congrArg String.mk hl
        simpa using this
      exact hnot kv (by simp) this.symm
    refine ih (fun x hx => hkeys x (by simp [hx])) (fun x hx => hnot x (by simp [hx])) _ ?_
    exact occursB_replaceAll_other hgne hgw hkv.1 hkv.2 hkne (jsString kv.2).toList s h

/-! ### Whitespace-free substrings survive normalization -/

theorem collapseAux_cons_not_ws {c : Char} (h : wsChar c = false) (bflag : Bool)
    (l : List Char) : collapseAux bflag (c :: l) = c :: collapseAux false l := by
  cases bflag <;> simp [collapseAux, h]

theorem collapseAux_copy {u : List Char} (hfree : ∀ c ∈ u, wsChar c = false) :
    ∀ y, collapseAux false (u ++ y) = u ++ collapseAux false y := by
  induction u with
  | nil => intro y; rfl
  | cons c u' ih =>
    intro y
    rw [List.cons_append, collapseAux_cons_not_ws (hfree c (by simp)) false,
      ih (fun x hx => hfree x (by simp [hx])) y]
    rfl

theorem collapseAux_occurs {q : List Char} (hq : q ≠ [])
    (hfree : ∀ c ∈ q, wsChar c = false) :
    ∀ (a : List Char) (bflag : Bool) (b : List Char),
      ∃ x y, collapseAux bflag (a ++ q ++ b) = x ++ q ++ y := by
  intro a
  induction a with
  | nil =>
    intro bflag b
    obtain ⟨q0, q', rfl⟩ : ∃ q0 q', q = q0 :: q' := by
      cases hql : q with
      | nil => exact absurd hql hq
      | cons q0 q' => exact ⟨q0, q', rfl⟩
    refine ⟨[], collapseAux false b, ?_⟩
    show collapseAux bflag (q0 :: (q' ++ b)) = q0 :: (q' ++ collapseAux false b)
    rw [collapseAux_cons_not_ws (hfree q0 (by simp)) bflag,
      collapseAux_copy (fun x hx => hfree x (by simp [hx])) b]
  | cons c a' ih =>
    intro bflag b
    by_cases hc : wsChar c = true
    · cases bflag with
      | true =>
        obtain ⟨x, y, hxy⟩ := ih true b
        refine ⟨x, y, ?_⟩
        rw [List.cons_append, List.cons_append]
        simp only [collapseAux, hc, if_true]
        exact hxy
      | false =>
        obtain ⟨x, y, hxy⟩ := ih true b
        refine ⟨' ' :: x, y, ?_⟩
        rw [List.cons_append, List.cons_append]
        simp only [collapseAux, hc, if_true, if_false, Bool.false_eq_true]
        rw [hxy]
        rfl
    · obtain ⟨x, y, hxy⟩ := ih false b
      refine ⟨c :: x, y, ?_⟩
      rw [List.cons_append, List.cons_append,
        collapseAux_cons_not_ws (Bool.eq_false_iff.mpr hc) bflag, hxy]
      rfl

theorem dropWhile_occurs {q : List Char} (hq : q ≠ [])
    (hfree : ∀ c ∈ q, wsChar c = false) :
    ∀ (a b : List Char), ∃ x y, (a ++ q ++ b).dropWhile wsChar = x ++ q ++ y := by
  intro a
  induction a with
  | nil =>
    intro b
    obtain ⟨q0, q', rfl⟩ : ∃ q0 q', q = q0 :: q' := by
      cases hql : q with
      | nil => exact absurd hql hq
      | cons q0 q' => exact ⟨q0, q', rfl⟩
    refine ⟨[], b, ?_⟩
    rw [List.nil_append, List.cons_append, List.dropWhile_cons_of_neg
      (by rw [hfree q0 (by simp)]; simp)]
  | cons c a' ih =>
    intro b
    by_cases hc : wsChar c = true
    · obtain ⟨x, y, hxy⟩ := ih b
      refine ⟨x, y, ?_⟩
      rw [List.cons_append, List.cons_append, List.dropWhile_cons_of_pos hc]
      exact hxy
    · refine ⟨c :: a', b, ?_⟩
      rw [List.cons_append, List.cons_append, List.dropWhile_cons_of_neg hc]

theorem jsTrim_occurs {q : List Char} (hq : q ≠ [])
    (hfree : ∀ c ∈ q, wsChar c = false) {s : List Char}
    (h : ∃ x y, s = x ++ q ++ y) : ∃ x y, jsTrim s = x ++ q ++ y := by
  obtain ⟨x, y, rfl⟩ := h
  have hqrev : q.reverse ≠ [] := by simpa using hq
  have hfrev : ∀ c ∈ q.reverse, wsChar c = false := by
    intro c hc
    exact hfree c (List.mem_reverse.mp hc)
  obtain ⟨x1, y1, h1⟩ := dropWhile_occurs hq hfree x y
  have h1r : ((x ++ q ++ y).dropWhile wsChar).reverse = y1.reverse ++ q.reverse ++ x1.reverse := by
    rw [h1]
    simp
  obtain ⟨x2, y2, h2⟩ := dropWhile_occurs hqrev hfrev y1.reverse x1.reverse
  rw [jsTrim, h1r, h2]
  refine ⟨y2.reverse, x2.reverse, ?_⟩
  simp

theorem splitLinesL_ne_nil : ∀ s : List Char, ∃ l ls, splitLinesL s = l :: ls := by
  intro s
  induction s with
  | nil => exact ⟨[], [], rfl⟩
  | cons c cs ih =>
    obtain ⟨l, ls, hrec⟩ := ih
    by_cases hc : c = '\n'
    · exact ⟨[], splitLinesL cs, by simp [splitLinesL, hc]⟩
    · exact ⟨c :: l, ls, by simp [splitLinesL, hc, hrec]⟩

theorem splitLinesL_append_noNl {u : List Char} (hnl : ∀ c ∈ u, c ≠ '\n') :
    ∀ {y l ls}, splitLinesL y = l :: ls → splitLinesL (u ++ y) = (u ++ l) :: ls := by
  induction u with
  | nil => intro y l ls h; simpa using h
  | cons c u' ih =>
    intro y l ls h
    have hc : c ≠ '\n' := hnl c (by simp)
    have hrec := ih (fun x hx => hnl x (by simp [hx])) h
    rw [List.cons_append]
    simp [splitLinesL, hc, hrec]

theorem splitLines_line_occurs {q : List Char} (hnl : ∀ c ∈ q, c ≠ '\n') :
    ∀ (a b : List Char), ∃ line ∈ splitLinesL (a ++ q ++ b), ∃ x y, line = x ++ q ++ y := by
  intro a
  induction a with
  | nil =>
    intro b
    obtain ⟨l, ls, hb⟩ := splitLinesL_ne_nil b
    have hsp : splitLinesL (q ++ b) = (q ++ l) :: ls := splitLinesL_append_noNl hnl hb
    refine ⟨q ++ l, ?_, [], l, by simp⟩
    have hshape : ([] : List Char) ++ q ++ b = q ++ b := by simp
    rw [hshape, hsp]
    exact List.mem_cons_self _ _
  | cons c a' ih =>
    intro b
    obtain ⟨line, hmem, x, y, hline⟩ := ih b
    have hshape : (c :: a') ++ q ++ b = c :: (a' ++ q ++ b) := by simp
    by_cases hc : c = '\n'
    · refine ⟨line, ?_, x, y, hline⟩
      rw [hshape]
      have hsp : splitLinesL (c :: (a' ++ q ++ b)) = [] :: splitLinesL (a' ++ q ++ b) := by
        simp [splitLinesL, hc]
      rw [hsp]
      exact List.mem_cons_of_mem _ hmem
    · obtain ⟨l0, ls0, hrec⟩ := splitLinesL_ne_nil (a' ++ q ++ b)
      have hrec2 : splitLinesL (a' ++ (q ++ b)) = l0 :: ls0 := by
        rw [← List.append_assoc]
        exact hrec
      have hsp : splitLinesL (c :: (a' ++ q ++ b)) = (c :: l0) :: ls0 := by
        simp [splitLinesL, hc, hrec2]
      rw [hrec] at hmem
      rcases List.mem_cons.mp hmem with rfl | hmem'
      · refine ⟨c :: line, ?_, c :: x, y, by rw [hline]; rfl⟩
        rw [hshape, hsp]
        exact List.mem_cons_self _ _
      · refine ⟨line, ?_, x, y, hline⟩
        rw [hshape, hsp]
        exact List.mem_cons_of_mem _ hmem'

theorem joinSp_occurs {q : List Char} :
    ∀ (L : List (List Char)) (line : List Char), line ∈ L →
      (∃ x y, line = x ++ q ++ y) → ∃ x y, joinSp L = x ++ q ++ y := by
  intro L
  induction L with
  | nil => intro line hmem; simp at hmem
  | cons l L' ih =>
    intro line hmem hocc
    cases L' with
    | nil =>
      rcases List.mem_cons.mp hmem with rfl | habs
      · simpa [joinSp] using hocc
      · simp at habs
    | cons l2 ls =>
      obtain ⟨x, y, hxy⟩ := hocc
      rcases List.mem_cons.mp hmem with rfl | hmem'
      · refine ⟨x, y ++ ' ' :: joinSp (l2 :: ls), ?_⟩
        have : joinSp (line :: l2 :: ls) = line ++ ' ' :: joinSp (l2 :: ls) := rfl
        rw [this, hxy]
        simp
      · obtain ⟨x2, y2, hxy2⟩ := ih line hmem' ⟨x, y, hxy⟩
        refine ⟨l ++ ' ' :: x2, y2, ?_⟩
        have : joinSp (l :: l2 :: ls) = l ++ ' ' :: joinSp (l2 :: ls) := rfl
        rw [this, hxy2]
        simp

/-- A nonempty whitespace-free substring survives the whole
whitespace-normalization step. -/
theorem occursB_normalizeWs {q : List Char} (hq : q ≠ [])
    (hfree : ∀ c ∈ q, wsChar c = false) {s : List Char}
    (h : occursB q s = true) : occursB q (normalizeWs s) = true := by
  have hnl : ∀ c ∈ q, c ≠ '\n' := by
    intro c hc hcn
    have := hfree c hc
    rw [hcn] at this
    exact absurd this (by decide)
  obtain ⟨a, b, rfl⟩ := (occursB_iff _ _).mp h
  obtain ⟨line, hmem, hlocc⟩ := splitLines_line_occurs hnl a b
  have htrim := jsTrim_occurs hq hfree hlocc
  have hmem2 : jsTrim line ∈ (splitLinesL (a ++ q ++ b)).map jsTrim :=
    List.mem_map_of_mem jsTrim hmem
  have hpos : 0 < (jsTrim line).length := by
    obtain ⟨x, y, hxy⟩ := htrim
    rw [hxy]
    have : 0 < q.length := List.length_pos.mpr hq
    simp only [List.length_append]
    omega
  have hmem3 : jsTrim line ∈ ((splitLinesL (a ++ q ++ b)).map jsTrim).filter
      (fun line => decide (0 < line.length)) :=
    List.mem_filter.mpr ⟨hmem2, by simpa using hpos⟩
  obtain ⟨x2, y2, hjoin⟩ := joinSp_occurs _ _ hmem3 htrim
  obtain ⟨x3, y3, hcol⟩ := collapseAux_occurs hq hfree x2 false y2
  have hcolws : ∃ x y, collapseWs (joinSp (((splitLinesL (a ++ q ++ b)).map jsTrim).filter
      (fun line => decide (0 < line.length)))) = x ++ q ++ y := by
    refine ⟨x3, y3, ?_⟩
    rw [collapseWs, hjoin]
    exact hcol
  have hfinal := jsTrim_occurs hq hfree hcolws
  rw [normalizeWs, occursB, splitAtSub_isSome_iff]
  exact hfinal

theorem dlookup_none_keys {d : DataRec} {g : String} (h : dlookup d g = none) :
    ∀ kv ∈ d, kv.1 ≠ g := by
  induction d with
  | nil => intro kv hkv; simp at hkv
  | cons p rest ih =>
    obtain ⟨k', v⟩ := p
    intro kv hkv
    simp only [dlookup] at h
    split at h
    · cases h
    · rename_i hk'
      rcases List.mem_cons.mp hkv with rfl | hkv'
      · exact hk'
      · exact ih h kv hkv'

/-- Claim C6: for every registered template and record `d` (with
word-character field names), a placeholder `{{g}}` present in the
block-processed body whose word-only name `g` is not a key of `d`
remains literally `{{g}}` in the successful render's output — it is
neither stripped nor an error. -/
theorem unknown_placeholder_left_literal (k : String) (t : Template) (d : DataRec)
    (g : String) (out : String)
    (hk : TEMPLATES.lookup k = some t)
    (hkeys : ∀ kv ∈ d, kv.1.toList ≠ [] ∧ ∀ c ∈ kv.1.toList, wordChar c = true)
    (hg1 : g.toList ≠ []) (hg2 : ∀ c ∈ g.toList, wordChar c = true)
    (hnotkey : dlookup d g = none)
    (hocc : occursB (wrapPh g) (processBlocks d t.textTemplate.toList) = true)
    (hout : renderTemplate k d = .ok out) :
    occursB (wrapPh g) out.toList = true := by
  have hrender : renderTemplate k d =
      (if (validateTemplateData k d).valid then .ok (renderedBody t d)
       else .error (.missingRequiredFields k (validateTemplateData k d).missingFields)) := by
    rw [renderTemplate, renderTemplateR, hk]
    rfl
  rw [hrender] at hout
  by_cases hv : (validateTemplateData k d).valid
  · rw [if_pos hv] at hout
    injection hout with hout1
    rw [← hout1]
    have houtl : (renderedBody t d).toList =
        normalizeWs (substAll d (processBlocks d t.textTemplate.toList)) := rfl
    rw [houtl]
    have hnot : ∀ kv ∈ d, kv.1 ≠ g := dlookup_none_keys hnotkey
    have hsub := occursB_substAll hg1 hg2 d hkeys hnot _ hocc
    have hq : wrapPh g ≠ [] := by
      rw [show wrapPh g = '\x7b' :: '\x7b' :: (g.toList ++ ['\x7d', '\x7d']) from rfl]
      simp
    exact occursB_normalizeWs hq (wrapPh_wsfree g hg2) hsub
  · rw [if_neg hv] at hout
    cases hout

/-- A complete record for `ORDER_CREATED` that supplies only the
required fields. -/
def dRequiredOnly : DataRec :=
  [("customerName", .str "Anna"), ("orderNumber", .str "1001"),
   ("shopName", .str "Shop"), ("total", .str "250")]

set_option maxRecDepth 8192 in
/-- Witness for C6: rendering `ORDER_CREATED` with only the required
fields leaves the optional `{{orderUrl}}` placeholder literally in the
output. -/
theorem unknown_placeholder_left_literal_witness :
    occursB (wrapPh "orderUrl")
      ("Hi Anna, thanks for your order #1001 from Shop. Your total is 250\x7b\x7bcurrency\x7d\x7d. Order details: \x7b\x7borderUrl\x7d\x7d").toList = true :=
  unknown_placeholder_left_literal "ORDER_CREATED" orderCreatedTemplate dRequiredOnly
    "orderUrl"
    "Hi Anna, thanks for your order #1001 from Shop. Your total is 250\x7b\x7bcurrency\x7d\x7d. Order details: \x7b\x7borderUrl\x7d\x7d"
    (by rfl) (by decide) (by decide) (by decide) (by rfl) (by decide) (by rfl)

end Wylto
